import Mathlib

/-! # Cute Chess: `EngineConfiguration`

A shallow embedding of `projects/lib/src/engineconfiguration.cpp` and proofs about its
construction, copy, assignment and (de)serialisation behaviour.

Modelling conventions

* `QString` is `String`, `QStringList` is `List String`.
* `QVariant` is an inductive type with the kinds of value the configuration format carries;
  the conversion functions (`toString`, `toBool`, `toStringList`, `toList`, `toMap`) follow
  the Qt conversion rules for these kinds.
* `QVariantMap` (`QMap<QString, QVariant>`) is a key-ordered association list.
* `EngineOption*` is a pointer into an explicit heap of option objects; `0` is the null
  pointer.  Dereferencing or deleting a pointer that does not designate a live object is
  undefined behaviour in C++ and is `none` here, as is a failed `Q_ASSERT`.
* The abstract `EngineOption` interface (`copy`, `toVariant`) and
  `EngineOptionFactory::create` are parameters of the development.
* A program state (`World`) is the heap together with the configuration objects that exist;
  `Step` and `Reachable` describe the runs of a program that constructs configurations and
  calls their public operations.
-/

set_option autoImplicit false

namespace CuteChess

/-! ## Qt value types -/

/-- The dynamically typed Qt value, restricted to the kinds that occur in a stored
engine configuration. -/
inductive QVariant where
  | invalid
  | bool (b : Bool)
  | int (i : Int)
  | string (s : String)
  | stringList (l : List String)
  | list (l : List QVariant)
  | map (m : List (String × QVariant))

/-- The Qt type `QVariantMap`, i.e. `QMap<QString, QVariant>`; entries are kept in key order. -/
abbrev QVariantMap := List (String × QVariant)

namespace QVariantMap

/-- The member `QMap::contains`. -/
def contains : QVariantMap → String → Bool
  | [], _ => false
  | (k, _) :: rest, key => if key = k then true else contains rest key

/-- The member `QMap::value`, which is also what `operator[]` does on a `const` map: the stored value,
or a default-constructed (invalid) `QVariant` when the key is absent. -/
def value : QVariantMap → String → QVariant
  | [], _ => QVariant.invalid
  | (k, v) :: rest, key => if key = k then v else value rest key

/-- The member `QMap::insert`: replaces the value of an existing key, otherwise adds the entry at its
place in key order (the lexicographic order of the keys' characters). -/
def insert : QVariantMap → String → QVariant → QVariantMap
  | [], key, v => [(key, v)]
  | (k, w) :: rest, key, v =>
    if key.data < k.data then (key, v) :: (k, w) :: rest
    else if key = k then (key, v) :: rest
    else (k, w) :: insert rest key v

end QVariantMap

namespace QVariant

/-- The conversion `QVariant::toString`: a string is itself, a boolean is "true" or "false",
an integer is its decimal form, a string list of exactly one element is that element, and
every other value is the empty string. -/
def toString : QVariant → String
  | string s => s
  | bool b => if b then "true" else "false"
  | int i => ToString.toString i
  | stringList l => match l with
    | [s] => s
    | _ => ""
  | _ => ""

/-- The conversion `QVariant::toBool`: a string converts to `false` exactly when its lower-cased form is
`"0"`, `"false"` or empty. -/
def toBool : QVariant → Bool
  | bool b => b
  | int i => i != 0
  | string s => !(s.toLower = "0" || s.toLower = "false" || s.isEmpty)
  | _ => false

/-- The conversion `QVariant::toStringList`: a string list is itself, a string is the
one-element list, a list is converted element by element, every other value is empty. -/
def toStringList : QVariant → List String
  | stringList l => l
  | string s => [s]
  | list l => l.map toString
  | _ => []

/-- The conversion `QVariant::toList`: a list is itself, a string list is the list of its
strings, every other value is the empty list. -/
def toList : QVariant → List QVariant
  | list l => l
  | stringList l => l.map string
  | _ => []

/-- The conversion `QVariant::toMap`: a map is itself, every other value is the empty map. -/
def toMap : QVariant → QVariantMap
  | map m => m
  | _ => []

end QVariant

namespace QString

/-- The segments of a character sequence between the occurrences of a separator, empty
segments included; a sequence without separator is its own single segment. -/
def splitChars (sep : Char) : List Char → List (List Char)
  | [] => [[]]
  | c :: cs =>
    if c = sep then [] :: splitChars sep cs
    else
      match splitChars sep cs with
      | [] => [[c]]
      | seg :: segs => (c :: seg) :: segs

/-- The member `QString::split(QChar sep)` with its default arguments: empty parts are kept
and the comparison is case sensitive. -/
def split (s : String) (sep : Char) : List String :=
  (splitChars sep s.data).map String.mk

end QString

/-! ## Option objects and the heap that holds them -/

/-- A value of type `EngineOption*`: the address of an option object, `0` for the null
pointer. -/
abbrev EngineOptionPtr := Nat

/-- The heap of `EngineOption` objects.  The object at address `i + 1` is entry `i`; an entry
is `none` once the object has been deleted.  A new object always receives an address that
was never used before, so an address identifies one object for the whole run. -/
abbrev OptionHeap (Obj : Type) := List (Option Obj)

namespace OptionHeap

variable {Obj : Type}

/-- The object a pointer designates; `none` for the null pointer, for an address that was
never allocated and for a deleted object. -/
def deref (h : OptionHeap Obj) : EngineOptionPtr → Option Obj
  | 0 => none
  | i + 1 => h.getD i none

/-- The C++ `new`: stores the object at a fresh address and returns that address. -/
def alloc (h : OptionHeap Obj) (o : Obj) : EngineOptionPtr × OptionHeap Obj :=
  (h.length + 1, h ++ [some o])

/-- The C++ `delete`: a no-op on the null pointer, undefined (`none`) on a pointer that does
not designate a live object. -/
def delete (h : OptionHeap Obj) : EngineOptionPtr → Option (OptionHeap Obj)
  | 0 => some h
  | i + 1 =>
    match h.getD i none with
    | none => none
    | some _ => some (h.set i none)

/-- A mutation of the object behind a pointer (any non-const member call on the option):
the object's state is replaced; undefined (`none`) when the pointer is not live. -/
def write (h : OptionHeap Obj) (p : EngineOptionPtr) (o : Obj) : Option (OptionHeap Obj) :=
  match p with
  | 0 => none
  | i + 1 =>
    match h.getD i none with
    | none => none
    | some _ => some (h.set i (some o))

end OptionHeap

/-- The Qt algorithm `qDeleteAll`: applies `delete` to every element, first to last. -/
def qDeleteAll {Obj : Type} : OptionHeap Obj → List EngineOptionPtr → Option (OptionHeap Obj)
  | h, [] => some h
  | h, p :: ps =>
    match h.delete p with
    | none => none
    | some h1 => qDeleteAll h1 ps

/-- Modelled from the spec: the `EngineOption` class and `EngineOptionFactory`, which are
declared in `engineoption.h` and `engineoptionfactory.h` and are taken as parameters.  An
option object of type `Obj` can produce the state of its clone (`EngineOption::copy`) and its
serialised form (`EngineOption::toVariant`), and the factory either builds the state of a new
option from a map or rejects the map (`EngineOptionFactory::create` returning null). -/
structure EngineOptionClass (Obj : Type) where
  copyState : Obj → Obj
  variantOf : Obj → QVariant
  createState : QVariantMap → Option Obj

namespace EngineOption

variable {Obj : Type}

/-- Modelled from the spec: the call `option->copy()`, which produces an independent clone.
It reads the object and allocates the clone as a new object. -/
def copy (cls : EngineOptionClass Obj) (h : OptionHeap Obj) (option : EngineOptionPtr) :
    Option (EngineOptionPtr × OptionHeap Obj) :=
  match h.deref option with
  | none => none
  | some o => some (h.alloc (cls.copyState o))

/-- Modelled from the spec: the call `option->toVariant()`, which reads the object and
returns its serialised form. -/
def toVariant (cls : EngineOptionClass Obj) (h : OptionHeap Obj) (option : EngineOptionPtr) :
    Option QVariant :=
  match h.deref option with
  | none => none
  | some o => some (cls.variantOf o)

end EngineOption

namespace EngineOptionFactory

/-- Modelled from the spec: the call `EngineOptionFactory::create(map)`, which returns a
pointer to a newly allocated option, or the null pointer when the factory rejects the map. -/
def create {Obj : Type} (cls : EngineOptionClass Obj) (h : OptionHeap Obj) (map : QVariantMap) :
    EngineOptionPtr × OptionHeap Obj :=
  match cls.createState map with
  | none => (0, h)
  | some o => h.alloc o

end EngineOptionFactory

/-! ## The configuration object -/

/-- The enumeration `EngineConfiguration::RestartMode`. -/
inductive RestartMode where
  | RestartAuto
  | RestartOn
  | RestartOff
  deriving DecidableEq

/-- The data members of `EngineConfiguration`. -/
structure EngineConfiguration where
  m_name : String
  m_command : String
  m_workingDirectory : String
  m_protocol : String
  m_arguments : List String
  m_initStrings : List String
  m_variants : List String
  m_whiteEvalPov : Bool
  m_restartMode : RestartMode
  m_options : List EngineOptionPtr
  deriving DecidableEq

namespace EngineConfiguration

open RestartMode

variable {Obj : Type}

/-! ### Accessors and mutators -/

def setName (c : EngineConfiguration) (name : String) : EngineConfiguration :=
  { c with m_name := name }

def setCommand (c : EngineConfiguration) (command : String) : EngineConfiguration :=
  { c with m_command := command }

def setProtocol (c : EngineConfiguration) (protocol : String) : EngineConfiguration :=
  { c with m_protocol := protocol }

def setWorkingDirectory (c : EngineConfiguration) (workingDir : String) :
    EngineConfiguration :=
  { c with m_workingDirectory := workingDir }

def name (c : EngineConfiguration) : String := c.m_name

def command (c : EngineConfiguration) : String := c.m_command

def workingDirectory (c : EngineConfiguration) : String := c.m_workingDirectory

def protocol (c : EngineConfiguration) : String := c.m_protocol

def arguments (c : EngineConfiguration) : List String := c.m_arguments

def setArguments (c : EngineConfiguration) (arguments : List String) : EngineConfiguration :=
  { c with m_arguments := arguments }

def addArgument (c : EngineConfiguration) (argument : String) : EngineConfiguration :=
  { c with m_arguments := c.m_arguments ++ [argument] }

def initStrings (c : EngineConfiguration) : List String := c.m_initStrings

def setInitStrings (c : EngineConfiguration) (initStrings : List String) :
    EngineConfiguration :=
  { c with m_initStrings := initStrings }

def addInitString (c : EngineConfiguration) (initString : String) : EngineConfiguration :=
  { c with m_initStrings := c.m_initStrings ++ QString.split initString '\n' }

def supportedVariants (c : EngineConfiguration) : List String := c.m_variants

def setSupportedVariants (c : EngineConfiguration) (variants : List String) :
    EngineConfiguration :=
  { c with m_variants := variants }

def options (c : EngineConfiguration) : List EngineOptionPtr := c.m_options

/-- The member `setOptions`: deletes the options held so far, then takes over the given list. -/
def setOptions (h : OptionHeap Obj) (c : EngineConfiguration)
    (options : List EngineOptionPtr) : Option (OptionHeap Obj × EngineConfiguration) :=
  match qDeleteAll h c.m_options with
  | none => none
  | some h1 => some (h1, { c with m_options := options })

/-- The member `addOption`: `Q_ASSERT(option != 0)`, then appends the pointer. -/
def addOption (c : EngineConfiguration) (option : EngineOptionPtr) :
    Option EngineConfiguration :=
  if option ≠ 0 then some { c with m_options := c.m_options ++ [option] } else none

def whiteEvalPov (c : EngineConfiguration) : Bool := c.m_whiteEvalPov

def setWhiteEvalPov (c : EngineConfiguration) (whiteEvalPov : Bool) : EngineConfiguration :=
  { c with m_whiteEvalPov := whiteEvalPov }

def restartMode (c : EngineConfiguration) : RestartMode := c.m_restartMode

def setRestartMode (c : EngineConfiguration) (mode : RestartMode) : EngineConfiguration :=
  { c with m_restartMode := mode }

/-! ### Constructors -/

/-- The constructor `EngineConfiguration()`: members without an initialiser are default-constructed. -/
def EngineConfiguration_default : EngineConfiguration :=
  { m_name := "", m_command := "", m_workingDirectory := "", m_protocol := "",
    m_arguments := [], m_initStrings := [],
    m_variants := ["standard"],
    m_whiteEvalPov := false,
    m_restartMode := RestartAuto,
    m_options := [] }

/-- The constructor `EngineConfiguration(const QString& name, const QString& command,
const QString& protocol)`. -/
def EngineConfiguration_name_command_protocol (name command protocol : String) :
    CuteChess.EngineConfiguration :=
  { m_name := name, m_command := command, m_workingDirectory := "", m_protocol := protocol,
    m_arguments := [], m_initStrings := [],
    m_variants := ["standard"],
    m_whiteEvalPov := false,
    m_restartMode := RestartAuto,
    m_options := [] }

/-- The `foreach` loop of the map constructor: every element of the `options` list is handed
to the factory, and the option is added when the factory returned a non-null pointer. -/
def EngineConfiguration_QVariant_loop (cls : EngineOptionClass Obj) :
    OptionHeap Obj → CuteChess.EngineConfiguration → List QVariant →
      Option (OptionHeap Obj × CuteChess.EngineConfiguration)
  | h, c, [] => some (h, c)
  | h, c, optionVariant :: rest =>
    match EngineOptionFactory.create cls h optionVariant.toMap with
    | (option, h1) =>
      if option ≠ 0 then
        match c.addOption option with
        | none => none
        | some c1 => EngineConfiguration_QVariant_loop cls h1 c1 rest
      else EngineConfiguration_QVariant_loop cls h1 c rest

/-- The constructor `EngineConfiguration(const QVariant& variant)`.  The new options are
allocated in the heap, so the result is the new heap and the configuration. -/
def EngineConfiguration_QVariant (cls : EngineOptionClass Obj) (h : OptionHeap Obj)
    (variant : QVariant) : Option (OptionHeap Obj × CuteChess.EngineConfiguration) :=
  let c : CuteChess.EngineConfiguration :=
    { m_name := "", m_command := "", m_workingDirectory := "", m_protocol := "",
      m_arguments := [], m_initStrings := [],
      m_variants := ["standard"],
      m_whiteEvalPov := false,
      m_restartMode := RestartAuto,
      m_options := [] }
  let map : QVariantMap := variant.toMap
  let c := c.setName (map.value "name").toString
  let c := c.setCommand (map.value "command").toString
  let c := c.setWorkingDirectory (map.value "workingDirectory").toString
  let c := c.setProtocol (map.value "protocol").toString
  let c := if map.contains "initStrings" then
      c.setInitStrings (map.value "initStrings").toStringList else c
  let c := if map.contains "whitepov" then
      c.setWhiteEvalPov (map.value "whitepov").toBool else c
  let c := if map.contains "restart" then
      let val := (map.value "restart").toString
      if val = "auto" then c.setRestartMode RestartAuto
      else if val = "on" then c.setRestartMode RestartOn
      else if val = "off" then c.setRestartMode RestartOff
      else c
    else c
  let c := if map.contains "variants" then
      c.setSupportedVariants (map.value "variants").toStringList else c
  if map.contains "options" then
    let optionsList := (map.value "options").toList
    EngineConfiguration_QVariant_loop cls h c optionsList
  else some (h, c)

/-- The loop `foreach (const EngineOption* option, other.options())
addOption(option->copy());` shared by the copy constructor and the assignment operator. -/
def copyOptions_loop (cls : EngineOptionClass Obj) :
    OptionHeap Obj → CuteChess.EngineConfiguration → List EngineOptionPtr →
      Option (OptionHeap Obj × CuteChess.EngineConfiguration)
  | h, c, [] => some (h, c)
  | h, c, option :: rest =>
    match EngineOption.copy cls h option with
    | none => none
    | some (clone, h1) =>
      match c.addOption clone with
      | none => none
      | some c1 => copyOptions_loop cls h1 c1 rest

/-- The copy constructor `EngineConfiguration(const EngineConfiguration& other)`. -/
def EngineConfiguration_copy (cls : EngineOptionClass Obj) (h : OptionHeap Obj)
    (other : CuteChess.EngineConfiguration) :
    Option (OptionHeap Obj × CuteChess.EngineConfiguration) :=
  let c : CuteChess.EngineConfiguration :=
    { m_name := other.m_name,
      m_command := other.m_command,
      m_workingDirectory := other.m_workingDirectory,
      m_protocol := other.m_protocol,
      m_arguments := other.m_arguments,
      m_initStrings := other.m_initStrings,
      m_variants := other.m_variants,
      m_whiteEvalPov := other.m_whiteEvalPov,
      m_restartMode := other.m_restartMode,
      m_options := [] }
  copyOptions_loop cls h c other.options

/-- The destructor `~EngineConfiguration()`. -/
def destroy (h : OptionHeap Obj) (c : CuteChess.EngineConfiguration) :
    Option (OptionHeap Obj) :=
  qDeleteAll h c.m_options

/-! ### Serialisation -/

/-- The `foreach` loop of `toVariant`: appends every option's serialised form. -/
def toVariant_loop (cls : EngineOptionClass Obj) (h : OptionHeap Obj) :
    List EngineOptionPtr → List QVariant → Option (List QVariant)
  | [], optionsList => some optionsList
  | option :: rest, optionsList =>
    match EngineOption.toVariant cls h option with
    | none => none
    | some v => toVariant_loop cls h rest (optionsList ++ [v])

/-- The member `EngineConfiguration::toVariant()`; reading an option that is not live is
undefined, hence the `Option`. -/
def toVariant (cls : EngineOptionClass Obj) (h : OptionHeap Obj)
    (c : CuteChess.EngineConfiguration) : Option QVariant :=
  let map : QVariantMap := []
  let map := map.insert "name" (QVariant.string c.m_name)
  let map := map.insert "command" (QVariant.string c.m_command)
  let map := map.insert "workingDirectory" (QVariant.string c.m_workingDirectory)
  let map := map.insert "protocol" (QVariant.string c.m_protocol)
  let map := if ¬ c.m_initStrings.isEmpty then
      map.insert "initStrings" (QVariant.stringList c.m_initStrings) else map
  let map := if c.m_whiteEvalPov then map.insert "whitepov" (QVariant.bool true) else map
  let map := if c.m_restartMode = RestartOn then map.insert "restart" (QVariant.string "on")
    else if c.m_restartMode = RestartOff then map.insert "restart" (QVariant.string "off")
    else map
  let map := if c.m_variants.count "standard" ≠ c.m_variants.length then
      map.insert "variants" (QVariant.stringList c.m_variants) else map
  if ¬ c.m_options.isEmpty then
    match toVariant_loop cls h c.m_options [] with
    | none => none
    | some optionsList => some (QVariant.map (map.insert "options" (QVariant.list optionsList)))
  else some (QVariant.map map)

/-! ### Assignment -/

/-- The assignment `operator=`.  `thisAddr` and `otherAddr` are the addresses of the two configuration
objects, which is what the guard `this != &other` compares; `this` and `other` are their
states.  The result is the new heap and the new state of `*this`. -/
def operatorAssign (cls : EngineOptionClass Obj) (h : OptionHeap Obj)
    (thisAddr otherAddr : Nat) (this other : CuteChess.EngineConfiguration) :
    Option (OptionHeap Obj × CuteChess.EngineConfiguration) :=
  if thisAddr ≠ otherAddr then
    let c := this.setName other.name
    let c := c.setCommand other.command
    let c := c.setProtocol other.protocol
    let c := c.setWorkingDirectory other.workingDirectory
    let c := c.setArguments other.arguments
    let c := c.setInitStrings other.initStrings
    let c := c.setSupportedVariants other.supportedVariants
    let c := c.setWhiteEvalPov other.whiteEvalPov
    let c := c.setRestartMode other.restartMode
    match qDeleteAll h c.m_options with
    | none => none
    | some h1 =>
      let c := { c with m_options := [] }
      copyOptions_loop cls h1 c other.options
  else some (h, this)

end EngineConfiguration

/-! ## Notions used in the statements -/

section Notions

variable {Obj : Type}

/-- The states of the option objects a configuration holds, in the order of its options
list; an entry is `none` where the pointer designates no live object. -/
def optionStates (h : OptionHeap Obj) (c : EngineConfiguration) : List (Option Obj) :=
  c.m_options.map h.deref

/-- Every pointer in the options list designates a live option object (so none is null). -/
def OptionsLive (h : OptionHeap Obj) (c : EngineConfiguration) : Prop :=
  ∀ p ∈ c.m_options, (h.deref p).isSome = true

instance (h : OptionHeap Obj) (c : EngineConfiguration) : Decidable (OptionsLive h c) :=
  inferInstanceAs (Decidable (∀ p ∈ c.m_options, (h.deref p).isSome = true))

/-- Exclusive ownership: the option pointers are live and no object is held twice. -/
def OwnsOptions (h : OptionHeap Obj) (c : EngineConfiguration) : Prop :=
  OptionsLive h c ∧ c.m_options.Nodup

instance (h : OptionHeap Obj) (c : EngineConfiguration) : Decidable (OwnsOptions h c) :=
  inferInstanceAs (Decidable (OptionsLive h c ∧ c.m_options.Nodup))

/-- No option object is held by both configurations. -/
def NoSharedOption (a b : EngineConfiguration) : Prop :=
  ∀ p ∈ a.m_options, p ∉ b.m_options

instance (a b : EngineConfiguration) : Decidable (NoSharedOption a b) :=
  inferInstanceAs (Decidable (∀ p ∈ a.m_options, p ∉ b.m_options))

end Notions

/-! ## Program states and the public operations -/

/-- A program state: the heap of option objects and the configuration objects that exist.
The address of a configuration object is its position in the list. -/
structure World (Obj : Type) where
  heap : OptionHeap Obj
  configs : List EngineConfiguration

/-- The public operations that change a configuration without reading or writing its
options. -/
inductive FieldUpdate where
  | setName (name : String)
  | setCommand (command : String)
  | setProtocol (protocol : String)
  | setWorkingDirectory (workingDir : String)
  | setArguments (arguments : List String)
  | addArgument (argument : String)
  | setInitStrings (initStrings : List String)
  | addInitString (initString : String)
  | setSupportedVariants (variants : List String)
  | setWhiteEvalPov (whiteEvalPov : Bool)
  | setRestartMode (mode : RestartMode)

/-- The effect of a field update on a configuration. -/
def FieldUpdate.apply : FieldUpdate → EngineConfiguration → EngineConfiguration
  | FieldUpdate.setName name, c => c.setName name
  | FieldUpdate.setCommand command, c => c.setCommand command
  | FieldUpdate.setProtocol protocol, c => c.setProtocol protocol
  | FieldUpdate.setWorkingDirectory workingDir, c => c.setWorkingDirectory workingDir
  | FieldUpdate.setArguments arguments, c => c.setArguments arguments
  | FieldUpdate.addArgument argument, c => c.addArgument argument
  | FieldUpdate.setInitStrings initStrings, c => c.setInitStrings initStrings
  | FieldUpdate.addInitString initString, c => c.addInitString initString
  | FieldUpdate.setSupportedVariants variants, c => c.setSupportedVariants variants
  | FieldUpdate.setWhiteEvalPov whiteEvalPov, c => c.setWhiteEvalPov whiteEvalPov
  | FieldUpdate.setRestartMode mode, c => c.setRestartMode mode

/-- One step of a program that uses configurations: the caller creates an option object, or
constructs a configuration with one of the four constructors, or calls a public operation on
an existing configuration.  A call whose behaviour is undefined is not a step.  The
predicates `okOption` and `okList` say which pointers the caller hands to `addOption` and
which lists to `setOptions`. -/
inductive Step {Obj : Type} (cls : EngineOptionClass Obj)
    (okOption : World Obj → EngineOptionPtr → Prop)
    (okList : World Obj → List EngineOptionPtr → Prop) : World Obj → World Obj → Prop
  | newOption (w : World Obj) (o : Obj) :
      Step cls okOption okList w ⟨(w.heap.alloc o).2, w.configs⟩
  | construct (w : World Obj) :
      Step cls okOption okList w
        ⟨w.heap, w.configs ++ [EngineConfiguration.EngineConfiguration_default]⟩
  | constructNamed (w : World Obj) (name command protocol : String) :
      Step cls okOption okList w
        ⟨w.heap, w.configs ++
          [EngineConfiguration.EngineConfiguration_name_command_protocol name command protocol]⟩
  | constructFromVariant (w : World Obj) (variant : QVariant) (h1 : OptionHeap Obj)
      (c : EngineConfiguration)
      (hc : EngineConfiguration.EngineConfiguration_QVariant cls w.heap variant = some (h1, c)) :
      Step cls okOption okList w ⟨h1, w.configs ++ [c]⟩
  | constructCopy (w : World Obj) (i : Nat) (other : EngineConfiguration)
      (h1 : OptionHeap Obj) (c : EngineConfiguration)
      (hother : w.configs[i]? = some other)
      (hc : EngineConfiguration.EngineConfiguration_copy cls w.heap other = some (h1, c)) :
      Step cls okOption okList w ⟨h1, w.configs ++ [c]⟩
  | update (w : World Obj) (i : Nat) (c : EngineConfiguration) (u : FieldUpdate)
      (hthis : w.configs[i]? = some c) :
      Step cls okOption okList w ⟨w.heap, w.configs.set i (u.apply c)⟩
  | addOption (w : World Obj) (i : Nat) (c : EngineConfiguration) (option : EngineOptionPtr)
      (c1 : EngineConfiguration)
      (hthis : w.configs[i]? = some c) (hok : okOption w option)
      (hc : c.addOption option = some c1) :
      Step cls okOption okList w ⟨w.heap, w.configs.set i c1⟩
  | setOptions (w : World Obj) (i : Nat) (c : EngineConfiguration)
      (options : List EngineOptionPtr) (h1 : OptionHeap Obj) (c1 : EngineConfiguration)
      (hthis : w.configs[i]? = some c) (hok : okList w options)
      (hc : EngineConfiguration.setOptions w.heap c options = some (h1, c1)) :
      Step cls okOption okList w ⟨h1, w.configs.set i c1⟩
  | assign (w : World Obj) (i j : Nat) (c other : EngineConfiguration)
      (h1 : OptionHeap Obj) (c1 : EngineConfiguration)
      (hthis : w.configs[i]? = some c) (hother : w.configs[j]? = some other)
      (hc : EngineConfiguration.operatorAssign cls w.heap i j c other = some (h1, c1)) :
      Step cls okOption okList w ⟨h1, w.configs.set i c1⟩

/-- The states a program reaches from a state without configurations. -/
inductive Reachable {Obj : Type} (cls : EngineOptionClass Obj)
    (okOption : World Obj → EngineOptionPtr → Prop)
    (okList : World Obj → List EngineOptionPtr → Prop) : World Obj → Prop
  | start (h : OptionHeap Obj) : Reachable cls okOption okList ⟨h, []⟩
  | step (w w1 : World Obj) (hw : Reachable cls okOption okList w)
      (hstep : Step cls okOption okList w w1) : Reachable cls okOption okList w1

section Disciplines

variable {Obj : Type}

/-- The caller hands a non-null pointer to `addOption`. -/
def nonNullOption (_ : World Obj) (p : EngineOptionPtr) : Prop := p ≠ 0

/-- The caller hands any list whatever to `setOptions`. -/
def anyList (_ : World Obj) (_ : List EngineOptionPtr) : Prop := True

/-- The caller hands a list of non-null pointers to `setOptions`. -/
def nonNullList (_ : World Obj) (l : List EngineOptionPtr) : Prop := ∀ p ∈ l, p ≠ 0

/-- The caller hands over a live option that no configuration holds. -/
def unheldOption (w : World Obj) (p : EngineOptionPtr) : Prop :=
  (w.heap.deref p).isSome = true ∧ ∀ c ∈ w.configs, p ∉ c.m_options

/-- The caller hands over a list of distinct live options that no configuration holds. -/
def unheldList (w : World Obj) (l : List EngineOptionPtr) : Prop :=
  l.Nodup ∧ ∀ p ∈ l, unheldOption w p

/-- Every option pointer of every configuration is non-null. -/
def AllOptionsNonNull (w : World Obj) : Prop :=
  ∀ c ∈ w.configs, ∀ p ∈ c.m_options, p ≠ 0

/-- Every option pointer of every configuration designates a live option object. -/
def AllOptionsLive (w : World Obj) : Prop :=
  ∀ c ∈ w.configs, OptionsLive w.heap c

/-- Exclusive ownership in a state: every configuration owns its options and no two
configuration objects hold an option in common. -/
def ExclusiveOwnership (w : World Obj) : Prop :=
  (∀ c ∈ w.configs, OwnsOptions w.heap c) ∧
  ∀ (i j : Nat) (a b : EngineConfiguration), i ≠ j →
    w.configs[i]? = some a → w.configs[j]? = some b → NoSharedOption a b

end Disciplines

/-! ## Concrete instances -/

/-- A sample option class: an option is a name with a text value, serialised as a map with
the keys `name` and `value`; the factory rejects a map that has no `name`. -/
def sampleOptionClass : EngineOptionClass (String × String) where
  copyState o := o
  variantOf o := QVariant.map [("name", QVariant.string o.1), ("value", QVariant.string o.2)]
  createState m :=
    if m.contains "name" then some ((m.value "name").toString, (m.value "value").toString)
    else none

/-- A heap with two live sample options, at the addresses `1` and `2`. -/
def sampleHeap : OptionHeap (String × String) :=
  [some ("Hash", "16"), some ("Ponder", "false")]

/-- The configuration of the explicit-values round trip, holding the two sample options. -/
def stockfish : EngineConfiguration :=
  { m_name := "Stockfish", m_command := "/usr/bin/stockfish", m_workingDirectory := "",
    m_protocol := "uci", m_arguments := [], m_initStrings := [],
    m_variants := ["standard", "chess960"],
    m_whiteEvalPov := true,
    m_restartMode := RestartMode.RestartOn,
    m_options := [1, 2] }

/-! ## Lemmas on maps, the heap and the loops -/

namespace QVariantMap

theorem contains_insert (m : QVariantMap) (k : String) (v : QVariant) (key : String) :
    contains (insert m k v) key = (decide (key = k) || contains m key) := by
  induction m with
  | nil => simp [insert, contains]
  | cons e rest ih =>
    obtain ⟨k1, w⟩ := e
    unfold insert
    split
    · simp [contains]
    · split
      · rename_i hk
        subst hk
        by_cases h : key = k <;> simp [contains, h]
      · rename_i hk
        by_cases h1 : key = k1
        · simp [contains, h1]
        · simp [contains, h1, ih]

theorem value_insert (m : QVariantMap) (k : String) (v : QVariant) (key : String) :
    value (insert m k v) key = if key = k then v else value m key := by
  induction m with
  | nil => simp [insert, value]
  | cons e rest ih =>
    obtain ⟨k1, w⟩ := e
    unfold insert
    split
    · simp [value]
    · split
      · rename_i hk
        subst hk
        by_cases h : key = k <;> simp [value, h]
      · rename_i hk
        by_cases h1 : key = k1
        · subst h1
          have hne : ¬ key = k := fun h => hk h.symm
          simp [value, hne]
        · simp [value, h1, ih]

theorem value_of_not_contains (m : QVariantMap) (key : String) (h : contains m key = false) :
    value m key = QVariant.invalid := by
  induction m with
  | nil => rfl
  | cons e rest ih =>
    obtain ⟨k1, w⟩ := e
    by_cases h1 : key = k1
    · simp [contains, h1] at h
    · simp [contains, h1] at h
      simp [value, h1, ih h]

theorem contains_nil (key : String) : contains [] key = false := rfl

theorem value_nil (key : String) : value [] key = QVariant.invalid := rfl

end QVariantMap

namespace OptionHeap

variable {Obj : Type}

theorem deref_le_length (h : OptionHeap Obj) (p : EngineOptionPtr) (o : Obj)
    (hp : h.deref p = some o) : p ≠ 0 ∧ p ≤ h.length := by
  cases p with
  | zero => simp [deref] at hp
  | succ i =>
    refine ⟨Nat.succ_ne_zero i, ?_⟩
    rcases Nat.lt_or_ge i (List.length h) with hlt | hge
    · exact hlt
    · simp [deref, List.getElem?_eq_none hge] at hp

theorem deref_append (h l : OptionHeap Obj) (p : EngineOptionPtr) (hp : p ≤ h.length) :
    deref (h ++ l) p = h.deref p := by
  cases p with
  | zero => rfl
  | succ i =>
    have hi : i < h.length := hp
    simp [deref, List.getD_eq_getElem?_getD, List.getElem?_append_left hi]

theorem deref_append_of_some (h l : OptionHeap Obj) (p : EngineOptionPtr) (o : Obj)
    (hp : h.deref p = some o) : deref (h ++ l) p = some o := by
  rw [deref_append h l p (deref_le_length h p o hp).2, hp]

theorem deref_fresh (h : OptionHeap Obj) (n : Nat) : h.deref (h.length + 1 + n) = none := by
  have : h.length + 1 + n = (h.length + n) + 1 := by omega
  rw [this]
  have hge : List.length h ≤ List.length h + n := Nat.le_add_right _ _
  simp [deref, List.getElem?_eq_none hge]

theorem map_deref_append (h l : OptionHeap Obj) (ps : List EngineOptionPtr) (objs : List Obj)
    (hps : ps.map h.deref = objs.map some) : ps.map (deref (h ++ l)) = objs.map some := by
  rw [← hps]
  apply List.map_congr_left
  intro p hp
  have hmem : h.deref p ∈ objs.map some := by
    rw [← hps]; exact List.mem_map_of_mem _ hp
  obtain ⟨o, _, ho⟩ := List.mem_map.1 hmem
  rw [deref_append_of_some h l p o ho.symm, ho]

theorem map_deref_range (h l : OptionHeap Obj) :
    (List.range' (h.length + 1) l.length).map (deref (h ++ l)) = l := by
  induction l generalizing h with
  | nil => simp
  | cons x l ih =>
    have e : h ++ x :: l = (h ++ [x]) ++ l := by simp
    have ih1 := ih (h ++ [x])
    simp only [List.length_append, List.length_singleton] at ih1
    simp only [List.length_cons, List.range'_succ, List.map_cons]
    rw [e, ih1]
    congr 1
    rw [deref_append (h ++ [x]) l (h.length + 1) (by simp)]
    simp [deref, List.getD_eq_getElem?_getD]

theorem exists_states (h : OptionHeap Obj) (ps : List EngineOptionPtr)
    (hlive : ∀ p ∈ ps, (h.deref p).isSome = true) :
    ∃ objs : List Obj, ps.map h.deref = objs.map some := by
  induction ps with
  | nil => exact ⟨[], rfl⟩
  | cons p ps ih =>
    obtain ⟨objs, hobjs⟩ := ih (fun q hq => hlive q (List.mem_cons_of_mem _ hq))
    obtain ⟨o, ho⟩ := Option.isSome_iff_exists.1 (hlive p (List.mem_cons_self _ _))
    exact ⟨o :: objs, by simp [ho, hobjs]⟩

end OptionHeap

namespace EngineConfiguration

open RestartMode

variable {Obj : Type}

/-- The copy loop, run on pointers that designate the objects `objs`, appends one clone per
object to the heap and the addresses of the clones to the options list. -/
theorem copyOptions_loop_eq (cls : EngineOptionClass Obj) (h : OptionHeap Obj)
    (c : CuteChess.EngineConfiguration) (ps : List EngineOptionPtr) (objs : List Obj)
    (hps : ps.map h.deref = objs.map some) :
    copyOptions_loop cls h c ps =
      some (h ++ (objs.map cls.copyState).map some,
        { c with m_options := c.m_options ++ List.range' (h.length + 1) objs.length }) := by
  induction ps generalizing h c objs with
  | nil =>
    cases objs with
    | nil => simp [copyOptions_loop]
    | cons o objs => simp at hps
  | cons p ps ih =>
    cases objs with
    | nil => simp at hps
    | cons o objs =>
      simp only [List.map_cons, List.cons.injEq] at hps
      obtain ⟨hp, hrest⟩ := hps
      have hrest1 := OptionHeap.map_deref_append h [some (cls.copyState o)] ps objs hrest
      have := ih (h ++ [some (cls.copyState o)])
        { c with m_options := c.m_options ++ [h.length + 1] } objs hrest1
      simp only [copyOptions_loop, EngineOption.copy, hp, OptionHeap.alloc, addOption]
      simp only [ne_eq, Nat.add_one_ne_zero, not_false_eq_true, if_true]
      rw [this]
      simp [List.range'_succ]

/-- The options loop of the map constructor allocates the options the factory accepts, in
order, and appends their addresses to the options list. -/
theorem EngineConfiguration_QVariant_loop_eq (cls : EngineOptionClass Obj) (h : OptionHeap Obj)
    (c : CuteChess.EngineConfiguration) (l : List QVariant) :
    EngineConfiguration_QVariant_loop cls h c l =
      some (h ++ (l.filterMap fun v => cls.createState v.toMap).map some,
        { c with m_options := c.m_options ++
            List.range' (h.length + 1) (l.filterMap fun v => cls.createState v.toMap).length }) := by
  induction l generalizing h c with
  | nil => simp [EngineConfiguration_QVariant_loop]
  | cons v l ih =>
    cases hv : cls.createState v.toMap with
    | none =>
      simp only [EngineConfiguration_QVariant_loop, EngineOptionFactory.create, hv]
      simp [ih, hv]
    | some o =>
      simp only [EngineConfiguration_QVariant_loop, EngineOptionFactory.create, hv,
        OptionHeap.alloc, addOption]
      simp only [ne_eq, Nat.add_one_ne_zero, not_false_eq_true, if_true]
      rw [ih]
      simp [hv, List.range'_succ]

/-- The serialisation loop appends the serialised form of every option, in order. -/
theorem toVariant_loop_eq (cls : EngineOptionClass Obj) (h : OptionHeap Obj)
    (ps : List EngineOptionPtr) (objs : List Obj) (acc : List QVariant)
    (hps : ps.map h.deref = objs.map some) :
    toVariant_loop cls h ps acc = some (acc ++ objs.map cls.variantOf) := by
  induction ps generalizing objs acc with
  | nil =>
    cases objs with
    | nil => simp [toVariant_loop]
    | cons o objs => simp at hps
  | cons p ps ih =>
    cases objs with
    | nil => simp at hps
    | cons o objs =>
      simp only [List.map_cons, List.cons.injEq] at hps
      obtain ⟨hp, hrest⟩ := hps
      simp [toVariant_loop, EngineOption.toVariant, hp, ih objs _ hrest]

/-- The map returned by `toVariant`, key by key: which keys it has and what they hold. -/
theorem toVariant_keys (cls : EngineOptionClass Obj) (h : OptionHeap Obj)
    (c : CuteChess.EngineConfiguration) (objs : List Obj)
    (hps : c.m_options.map h.deref = objs.map some) :
    ∃ m : QVariantMap, toVariant cls h c = some (QVariant.map m) ∧
      (m.contains "name" = true ∧ m.value "name" = QVariant.string c.m_name) ∧
      (m.contains "command" = true ∧ m.value "command" = QVariant.string c.m_command) ∧
      (m.contains "workingDirectory" = true ∧
        m.value "workingDirectory" = QVariant.string c.m_workingDirectory) ∧
      (m.contains "protocol" = true ∧ m.value "protocol" = QVariant.string c.m_protocol) ∧
      (m.contains "initStrings" = !c.m_initStrings.isEmpty ∧
        (c.m_initStrings ≠ [] → m.value "initStrings" = QVariant.stringList c.m_initStrings)) ∧
      (m.contains "whitepov" = c.m_whiteEvalPov ∧
        (c.m_whiteEvalPov = true → m.value "whitepov" = QVariant.bool true)) ∧
      (m.contains "restart" = decide (c.m_restartMode ≠ RestartAuto) ∧
        (c.m_restartMode = RestartOn → m.value "restart" = QVariant.string "on") ∧
        (c.m_restartMode = RestartOff → m.value "restart" = QVariant.string "off")) ∧
      (m.contains "variants" = decide (c.m_variants.count "standard" ≠ c.m_variants.length) ∧
        (c.m_variants.count "standard" ≠ c.m_variants.length →
          m.value "variants" = QVariant.stringList c.m_variants)) ∧
      (m.contains "options" = !c.m_options.isEmpty ∧
        (c.m_options ≠ [] → m.value "options" = QVariant.list (objs.map cls.variantOf))) := by
  unfold toVariant
  rw [toVariant_loop_eq cls h c.m_options objs [] hps]
  obtain ⟨n, cm, wd, pr, args, inits, vars, wp, rm, opts⟩ := c
  by_cases h1 : inits = [] <;> by_cases h2 : wp = true <;> by_cases h4 : vars.count "standard" = vars.length <;>
    by_cases h5 : opts = [] <;> cases rm <;>
    simp [h1, h2, h4, h5, QVariantMap.contains_insert, QVariantMap.value_insert,
      QVariantMap.contains_nil, QVariantMap.value_nil]

/-- The configuration returned by the map constructor, field by field. -/
theorem EngineConfiguration_QVariant_fields (cls : EngineOptionClass Obj) (h : OptionHeap Obj)
    (v : QVariant) (news : List Obj)
    (hnews : news = if v.toMap.contains "options" = true then
        (v.toMap.value "options").toList.filterMap (fun x => cls.createState x.toMap) else []) :
    ∃ c : CuteChess.EngineConfiguration,
      EngineConfiguration_QVariant cls h v = some (h ++ news.map some, c) ∧
      c.m_name = (v.toMap.value "name").toString ∧
      c.m_command = (v.toMap.value "command").toString ∧
      c.m_workingDirectory = (v.toMap.value "workingDirectory").toString ∧
      c.m_protocol = (v.toMap.value "protocol").toString ∧
      c.m_arguments = [] ∧
      c.m_initStrings = (if v.toMap.contains "initStrings" = true then
        (v.toMap.value "initStrings").toStringList else []) ∧
      c.m_whiteEvalPov = (if v.toMap.contains "whitepov" = true then
        (v.toMap.value "whitepov").toBool else false) ∧
      c.m_restartMode = (if v.toMap.contains "restart" = true then
        (if (v.toMap.value "restart").toString = "auto" then RestartAuto
         else if (v.toMap.value "restart").toString = "on" then RestartOn
         else if (v.toMap.value "restart").toString = "off" then RestartOff
         else RestartAuto) else RestartAuto) ∧
      c.m_variants = (if v.toMap.contains "variants" = true then
        (v.toMap.value "variants").toStringList else ["standard"]) ∧
      c.m_options = List.range' (h.length + 1) news.length := by
  subst hnews
  by_cases ho : v.toMap.contains "options" = true <;>
  by_cases hi : v.toMap.contains "initStrings" = true <;>
  by_cases hw : v.toMap.contains "whitepov" = true <;>
  by_cases hv : v.toMap.contains "variants" = true <;>
  by_cases hr : v.toMap.contains "restart" = true <;>
  by_cases h1 : (v.toMap.value "restart").toString = "auto" <;>
  by_cases h2 : (v.toMap.value "restart").toString = "on" <;>
  by_cases h3 : (v.toMap.value "restart").toString = "off" <;>
  simp [EngineConfiguration_QVariant, EngineConfiguration_QVariant_loop_eq, ho, hi, hw, hv, hr,
    h1, h2, h3, setName, setCommand, setWorkingDirectory, setProtocol, setInitStrings,
    setWhiteEvalPov, setRestartMode, setSupportedVariants]

end EngineConfiguration

/-! ## Lemmas on deletion, copying and assignment -/

section HeapLemmas

open EngineConfiguration RestartMode

variable {Obj : Type}

theorem count_standard_ne_length_iff (l : List String) :
    l.count "standard" ≠ l.length ↔ ∃ s ∈ l, s ≠ "standard" := by
  rw [Ne, List.count_eq_length]
  constructor
  · intro hn
    by_contra hall
    apply hn
    intro b hb
    by_contra hne
    exact hall ⟨b, hb, fun e => hne e.symm⟩
  · rintro ⟨s, hs, hne⟩ hall
    exact hne (hall s hs).symm

namespace OptionHeap

theorem deref_set (h : OptionHeap Obj) (i : Nat) (x : Option Obj) (q : EngineOptionPtr)
    (hi : i < List.length h) :
    deref (List.set h i x) q = if q = i + 1 then x else h.deref q := by
  cases q with
  | zero => simp [deref]
  | succ j =>
    by_cases hj : j = i
    · subst hj
      simp [deref, List.getElem?_set, hi]
    · have hne : i ≠ j := fun e => hj e.symm
      simp [deref, List.getElem?_set_ne hne, hj]

theorem delete_of_live (h : OptionHeap Obj) (p : EngineOptionPtr) (o : Obj)
    (hp : h.deref p = some o) :
    ∃ h1, h.delete p = some h1 ∧ List.length h1 = List.length h ∧
      ∀ q, h1.deref q = if q = p then none else h.deref q := by
  have hle := (deref_le_length h p o hp).2
  cases p with
  | zero => simp [deref] at hp
  | succ i =>
    have hi : i < List.length h := hle
    have hget : List.getD h i none = some o := hp
    refine ⟨List.set h i none, ?_, by simp, fun q => deref_set h i none q hi⟩
    simp only [delete, hget]

theorem write_of_live (h : OptionHeap Obj) (p : EngineOptionPtr) (o new : Obj)
    (hp : h.deref p = some o) :
    ∃ h1, h.write p new = some h1 ∧ List.length h1 = List.length h ∧
      ∀ q, h1.deref q = if q = p then some new else h.deref q := by
  have hle := (deref_le_length h p o hp).2
  cases p with
  | zero => simp [deref] at hp
  | succ i =>
    have hi : i < List.length h := hle
    have hget : List.getD h i none = some o := hp
    refine ⟨List.set h i (some new), ?_, by simp, fun q => deref_set h i (some new) q hi⟩
    simp only [write, hget]

end OptionHeap

/-- Deleting a list of live, pairwise distinct pointers succeeds, keeps the size of the heap,
and kills exactly the listed objects. -/
theorem qDeleteAll_of_owned (h : OptionHeap Obj) (ps : List EngineOptionPtr)
    (hlive : ∀ p ∈ ps, (h.deref p).isSome = true) (hnodup : ps.Nodup) :
    ∃ h1, qDeleteAll h ps = some h1 ∧ List.length h1 = List.length h ∧
      ∀ q, h1.deref q = if q ∈ ps then none else h.deref q := by
  induction ps generalizing h with
  | nil => exact ⟨h, rfl, rfl, fun q => by simp⟩
  | cons p ps ih =>
    obtain ⟨o, ho⟩ := Option.isSome_iff_exists.1 (hlive p (List.mem_cons_self _ _))
    obtain ⟨hd, hdel, hlen, hderef⟩ := OptionHeap.delete_of_live h p o ho
    have hp : p ∉ ps := (List.nodup_cons.1 hnodup).1
    have hlive1 : ∀ q ∈ ps, (hd.deref q).isSome = true := by
      intro q hq
      have hqp : q ≠ p := fun e => hp (e ▸ hq)
      rw [hderef q, if_neg hqp]
      exact hlive q (List.mem_cons_of_mem _ hq)
    obtain ⟨h1, hall, hlen1, hderef1⟩ := ih hd hlive1 (List.nodup_cons.1 hnodup).2
    refine ⟨h1, by simp [qDeleteAll, hdel, hall], hlen1.trans hlen, ?_⟩
    intro q
    rw [hderef1 q]
    by_cases hq : q ∈ ps
    · simp [hq]
    · rw [if_neg hq, hderef q]
      by_cases hqp : q = p
      · simp [hqp]
      · simp [hqp, hq]

theorem optionStates_eq_of_deref_eq (h h1 : OptionHeap Obj) (c : EngineConfiguration)
    (heq : ∀ p ∈ c.m_options, h1.deref p = h.deref p) :
    optionStates h1 c = optionStates h c :=
  List.map_congr_left heq

/-- The copy loop started from a configuration without options: the clones sit at the fresh
addresses, in order, and every older address reads as before. -/
theorem copy_result (cls : EngineOptionClass Obj) (h : OptionHeap Obj)
    (c : EngineConfiguration) (ps : List EngineOptionPtr) (objs : List Obj)
    (hc : c.m_options = []) (hps : ps.map h.deref = objs.map some) :
    ∃ (h1 : OptionHeap Obj) (c1 : EngineConfiguration),
      copyOptions_loop cls h c ps = some (h1, c1) ∧
      h1 = h ++ (objs.map cls.copyState).map some ∧
      c1 = { c with m_options := List.range' (List.length h + 1) ps.length } ∧
      optionStates h1 c1 = (ps.map h.deref).map (Option.map cls.copyState) ∧
      (∀ q, q ≤ List.length h → h1.deref q = h.deref q) := by
  have hlen : objs.length = ps.length := by
    have := congrArg List.length hps
    simpa using this.symm
  refine ⟨_, _, copyOptions_loop_eq cls h c ps objs hps, rfl, ?_, ?_, ?_⟩
  · rw [hc, hlen]; rfl
  · unfold optionStates
    have := OptionHeap.map_deref_range h ((objs.map cls.copyState).map some)
    simp only [List.length_map] at this
    simp only [hc, List.nil_append]
    rw [this, hps]
    simp [Function.comp_def]
  · intro q hq
    exact OptionHeap.deref_append h _ q hq

theorem operatorAssign_distinct (cls : EngineOptionClass Obj) (h : OptionHeap Obj)
    (thisAddr otherAddr : Nat) (this other : EngineConfiguration)
    (hdistinct : thisAddr ≠ otherAddr) :
    operatorAssign cls h thisAddr otherAddr this other =
      match qDeleteAll h this.m_options with
      | none => none
      | some h1 => copyOptions_loop cls h1 { other with m_options := [] } other.m_options := by
  unfold operatorAssign
  rw [if_pos hdistinct]
  dsimp only [setName, setCommand, setProtocol, setWorkingDirectory, setArguments,
    setInitStrings, setSupportedVariants, setWhiteEvalPov, setRestartMode]
  rfl

/-- The assignment between distinct objects: the heap `hd` after deleting the target's
options, the final heap `h1`, and the resulting configuration. -/
theorem assign_result (cls : EngineOptionClass Obj) (h : OptionHeap Obj)
    (thisAddr otherAddr : Nat) (this other : EngineConfiguration)
    (hdistinct : thisAddr ≠ otherAddr) (hthis : OwnsOptions h this)
    (hother : OptionsLive h other) (hshare : NoSharedOption this other) :
    ∃ (hd h1 : OptionHeap Obj) (c1 : EngineConfiguration),
      operatorAssign cls h thisAddr otherAddr this other = some (h1, c1) ∧
      List.length hd = List.length h ∧
      (∀ q, hd.deref q = if q ∈ this.m_options then none else h.deref q) ∧
      (∀ q, q ≤ List.length h → h1.deref q = hd.deref q) ∧
      c1 = { other with m_options := List.range' (List.length h + 1) other.m_options.length } ∧
      optionStates h1 c1 = (optionStates h other).map (Option.map cls.copyState) := by
  obtain ⟨hd, hdel, hlen, hderef⟩ := qDeleteAll_of_owned h this.m_options hthis.1 hthis.2
  have hkeep : ∀ q ∈ other.m_options, hd.deref q = h.deref q := by
    intro q hq
    have : q ∉ this.m_options := fun hqa => hshare q hqa hq
    rw [hderef q, if_neg this]
  obtain ⟨objs, hobjs⟩ := OptionHeap.exists_states h other.m_options hother
  have hobjs1 : other.m_options.map hd.deref = objs.map some := by
    rw [← hobjs]; exact List.map_congr_left hkeep
  obtain ⟨h1, c1, hc1, -, hce, hst, hold⟩ := copy_result cls hd
    { other with m_options := [] } other.m_options objs rfl hobjs1
  refine ⟨hd, h1, c1, ?_, hlen, hderef, ?_, ?_, ?_⟩
  · rw [operatorAssign_distinct cls h thisAddr otherAddr this other hdistinct, hdel]
    exact hc1
  · intro q hq
    rw [← hlen] at hq
    exact hold q hq
  · rw [hce, hlen]
  · rw [hst]
    unfold optionStates
    rw [List.map_congr_left hkeep]

/-- Writing through a pointer at or below address `n` does not touch the options of a
configuration whose pointers are all above `n`. -/
theorem write_source_keeps_clones (h1 : OptionHeap Obj) (a b : EngineConfiguration) (n : Nat)
    (ha : ∀ p ∈ a.m_options, p ≤ n ∧ (h1.deref p).isSome = true)
    (hb : ∀ q ∈ b.m_options, n + 1 ≤ q) :
    NoSharedOption a b ∧
    ∀ p ∈ a.m_options, ∀ new : Obj, ∃ h2 : OptionHeap Obj,
      h1.write p new = some h2 ∧ h2.deref p = some new ∧
      optionStates h2 b = optionStates h1 b := by
  have hneq : ∀ p ∈ a.m_options, ∀ q ∈ b.m_options, q ≠ p := by
    intro p hp q hq e
    have h1 := (ha p hp).1
    have h2 := hb q hq
    rw [e] at h2
    exact Nat.not_succ_le_self _ (Nat.le_trans h2 h1)
  constructor
  · intro p hp hpb
    exact hneq p hp p hpb rfl
  · intro p hp new
    obtain ⟨o, ho⟩ := Option.isSome_iff_exists.1 (ha p hp).2
    obtain ⟨h2, hw, -, hderef⟩ := OptionHeap.write_of_live h1 p o new ho
    refine ⟨h2, hw, by rw [hderef p, if_pos rfl], ?_⟩
    apply optionStates_eq_of_deref_eq
    intro q hq
    rw [hderef q, if_neg (hneq p hp q hq)]

theorem live_le_length (h : OptionHeap Obj) (c : EngineConfiguration) (hc : OptionsLive h c) :
    ∀ p ∈ c.m_options, p ≤ List.length h := by
  intro p hp
  obtain ⟨o, ho⟩ := Option.isSome_iff_exists.1 (hc p hp)
  exact (OptionHeap.deref_le_length h p o ho).2

theorem fromVariant_options_live (cls : EngineOptionClass Obj) (h : OptionHeap Obj)
    (v : QVariant) (h1 : OptionHeap Obj) (c : EngineConfiguration)
    (hc : EngineConfiguration_QVariant cls h v = some (h1, c)) : OptionsLive h1 c := by
  obtain ⟨c', hc', -, -, -, -, -, -, -, -, -, f10⟩ :=
    EngineConfiguration_QVariant_fields cls h v _ rfl
  rw [hc] at hc'
  simp only [Option.some.injEq, Prod.mk.injEq] at hc'
  obtain ⟨hh, hcc⟩ := hc'
  subst hcc
  intro p hp
  have hmap := OptionHeap.map_deref_range h
    ((if v.toMap.contains "options" = true then
      (v.toMap.value "options").toList.filterMap (fun x => cls.createState x.toMap)
      else []).map some)
  simp only [List.length_map] at hmap
  rw [← f10, ← hh] at hmap
  have hmem : h1.deref p ∈ c.m_options.map h1.deref := List.mem_map_of_mem _ hp
  rw [hmap] at hmem
  obtain ⟨o, -, ho⟩ := List.mem_map.1 hmem
  rw [← ho]; rfl

namespace QString

theorem splitChars_ne_nil (sep : Char) (cs : List Char) : splitChars sep cs ≠ [] := by
  cases cs with
  | nil => simp [splitChars]
  | cons c cs =>
    unfold splitChars
    split
    · simp
    · split <;> simp

theorem length_splitChars (sep : Char) (cs : List Char) :
    (splitChars sep cs).length = 1 + cs.count sep := by
  induction cs with
  | nil => simp [splitChars]
  | cons c cs ih =>
    unfold splitChars
    by_cases hc : c = sep
    · subst hc
      simp [ih]
      omega
    · have hne : (c == sep) = false := by simpa using hc
      rw [if_neg hc, List.count_cons, hne]
      cases hs : splitChars sep cs with
      | nil => exact absurd hs (splitChars_ne_nil sep cs)
      | cons seg segs =>
        rw [hs] at ih
        simpa using ih

theorem not_mem_splitChars (sep : Char) (cs : List Char) :
    ∀ seg ∈ splitChars sep cs, sep ∉ seg := by
  induction cs with
  | nil => simp [splitChars]
  | cons c cs ih =>
    unfold splitChars
    by_cases hc : c = sep
    · rw [if_pos hc]
      intro seg hseg
      rcases List.mem_cons.1 hseg with h | h
      · subst h; simp
      · exact ih seg h
    · rw [if_neg hc]
      cases hs : splitChars sep cs with
      | nil => exact absurd hs (splitChars_ne_nil sep cs)
      | cons seg0 segs =>
        rw [hs] at ih
        intro seg hseg
        rcases List.mem_cons.1 hseg with h | h
        · subst h
          intro hmem
          rcases List.mem_cons.1 hmem with h1 | h1
          · exact hc h1.symm
          · exact ih seg0 (List.mem_cons_self _ _) h1
        · exact ih seg (List.mem_cons_of_mem _ h)

theorem intercalate_splitChars (sep : Char) (cs : List Char) :
    [sep].intercalate (splitChars sep cs) = cs := by
  induction cs with
  | nil => simp [splitChars, List.intercalate]
  | cons c cs ih =>
    unfold splitChars
    by_cases hc : c = sep
    · subst hc
      rw [if_pos rfl]
      cases hs : splitChars c cs with
      | nil => exact absurd hs (splitChars_ne_nil c cs)
      | cons seg segs =>
        rw [hs] at ih
        simp only [List.intercalate, List.intersperse_cons_cons, List.flatten_cons,
          List.nil_append, List.singleton_append] at ih ⊢
        rw [ih]
    · rw [if_neg hc]
      cases hs : splitChars sep cs with
      | nil => exact absurd hs (splitChars_ne_nil sep cs)
      | cons seg segs =>
        rw [hs] at ih
        cases segs with
        | nil =>
          simp only [List.intercalate, List.intersperse_single, List.flatten_cons, List.flatten_nil,
            List.append_nil] at ih ⊢
          rw [ih]
        | cons seg2 segs =>
          simp only [List.intercalate, List.intersperse_cons_cons, List.flatten_cons,
            List.cons_append] at ih ⊢
          rw [ih]

end QString

/-- What `toVariant` returns depends only on the four strings, the init strings, the white-POV
flag, the restart mode, the variants when they are not all "standard", and the serialised
options. -/
theorem toVariant_congr (cls : EngineOptionClass Obj) (h h1 : OptionHeap Obj)
    (c c1 : EngineConfiguration)
    (hn : c1.m_name = c.m_name) (hc : c1.m_command = c.m_command)
    (hw : c1.m_workingDirectory = c.m_workingDirectory) (hp : c1.m_protocol = c.m_protocol)
    (hi : c1.m_initStrings = c.m_initStrings) (hb : c1.m_whiteEvalPov = c.m_whiteEvalPov)
    (hr : c1.m_restartMode = c.m_restartMode)
    (hv : c1.m_variants = c.m_variants ∨
      (c.m_variants.count "standard" = c.m_variants.length ∧
       c1.m_variants.count "standard" = c1.m_variants.length))
    (hoe : c1.m_options.isEmpty = c.m_options.isEmpty)
    (hol : toVariant_loop cls h1 c1.m_options [] = toVariant_loop cls h c.m_options []) :
    toVariant cls h1 c1 = toVariant cls h c := by
  obtain ⟨n, cm, wd, pr, args, inits, vars, wp, rm, opts⟩ := c
  obtain ⟨n1, cm1, wd1, pr1, args1, inits1, vars1, wp1, rm1, opts1⟩ := c1
  simp only at hn hc hw hp hi hb hr hv hoe hol
  subst hn hc hw hp hi hb hr
  unfold toVariant
  simp only [hoe, hol]
  rcases hv with hv | ⟨hv, hv1⟩
  · subst hv; rfl
  · simp only [hv, hv1, ne_eq, not_true_eq_false, if_false]

/-- When the factory rebuilds every object of a list from its serialised form into an object
with the same serialised form, it accepts the whole serialised list, and the rebuilt objects
serialise to that list again. -/
theorem filterMap_create_variantOf (cls : EngineOptionClass Obj) (objs : List Obj)
    (hfactory : ∀ o ∈ objs, ∃ o1, cls.createState (cls.variantOf o).toMap = some o1 ∧
      cls.variantOf o1 = cls.variantOf o) :
    ((objs.map cls.variantOf).filterMap fun x => cls.createState x.toMap).map cls.variantOf =
      objs.map cls.variantOf := by
  induction objs with
  | nil => rfl
  | cons o objs ih =>
    obtain ⟨o1, ho1, hv1⟩ := hfactory o (List.mem_cons_self _ _)
    have ih1 := ih (fun x hx => hfactory x (List.mem_cons_of_mem _ hx))
    simp only [List.map_cons, List.filterMap_cons, ho1, hv1, ih1]

/-- The round trip of a configuration with live option pointers through `toVariant` and the
map constructor, field by field. -/
theorem roundtrip_fields (cls : EngineOptionClass Obj) (h : OptionHeap Obj)
    (c : EngineConfiguration) (objs : List Obj)
    (hobjs : c.m_options.map h.deref = objs.map some) :
    ∃ (m : QVariantMap) (c1 : EngineConfiguration),
      toVariant cls h c = some (QVariant.map m) ∧
      EngineConfiguration_QVariant cls h (QVariant.map m) =
        some (h ++ ((objs.map cls.variantOf).filterMap
          fun x => cls.createState x.toMap).map some, c1) ∧
      c1.m_name = c.m_name ∧ c1.m_command = c.m_command ∧
      c1.m_workingDirectory = c.m_workingDirectory ∧ c1.m_protocol = c.m_protocol ∧
      c1.m_initStrings = c.m_initStrings ∧ c1.m_whiteEvalPov = c.m_whiteEvalPov ∧
      c1.m_restartMode = c.m_restartMode ∧
      c1.m_variants = (if c.m_variants.count "standard" ≠ c.m_variants.length
        then c.m_variants else ["standard"]) ∧
      c1.m_options = List.range' (List.length h + 1)
        ((objs.map cls.variantOf).filterMap fun x => cls.createState x.toMap).length := by
  obtain ⟨m, hm, ⟨-, hn⟩, ⟨-, hc⟩, ⟨-, hw⟩, ⟨-, hp⟩, ⟨hi1, hi2⟩, ⟨hwp1, hwp2⟩, ⟨hr1, hr2, hr3⟩,
    ⟨hv1, hv2⟩, ⟨ho1, ho2⟩⟩ := toVariant_keys cls h c objs hobjs
  obtain ⟨c1, hc1, f1, f2, f3, f4, -, f6, f7, f8, f9, f10⟩ :=
    EngineConfiguration_QVariant_fields cls h (QVariant.map m) _ rfl
  have hlen : objs.length = c.m_options.length := by
    have := congrArg List.length hobjs
    simpa using this.symm
  have hnews : (if (QVariant.map m).toMap.contains "options" = true then
      ((QVariant.map m).toMap.value "options").toList.filterMap
        (fun x => cls.createState x.toMap) else []) =
      (objs.map cls.variantOf).filterMap fun x => cls.createState x.toMap := by
    by_cases he : c.m_options = []
    · have : objs = [] := by
        rw [he] at hlen; exact List.length_eq_zero.1 hlen
      simp [QVariant.toMap, ho1, he, this]
    · have hne : c.m_options.isEmpty = false := by
        cases hl : c.m_options with
        | nil => exact absurd hl he
        | cons a l => rfl
      simp only [QVariant.toMap, ho1, hne, ho2 he, QVariant.toList, Bool.not_false, if_true]
  rw [hnews] at hc1 f10
  refine ⟨m, c1, hm, hc1, ?_, ?_, ?_, ?_, ?_, ?_, ?_, ?_, f10⟩
  · simp [f1, QVariant.toMap, hn, QVariant.toString]
  · simp [f2, QVariant.toMap, hc, QVariant.toString]
  · simp [f3, QVariant.toMap, hw, QVariant.toString]
  · simp [f4, QVariant.toMap, hp, QVariant.toString]
  · rw [f6]
    by_cases he : c.m_initStrings = []
    · simp [QVariant.toMap, hi1, he]
    · have : c.m_initStrings.isEmpty = false := by
        cases hl : c.m_initStrings with
        | nil => exact absurd hl he
        | cons a l => rfl
      simp [QVariant.toMap, hi1, hi2 he, this, QVariant.toStringList]
  · rw [f7]
    cases hb : c.m_whiteEvalPov with
    | false => simp [QVariant.toMap, hwp1, hb]
    | true => simp [QVariant.toMap, hwp1, hwp2 hb, hb, QVariant.toBool]
  · rw [f8]
    cases hmode : c.m_restartMode with
    | RestartAuto => simp [QVariant.toMap, hr1, hmode]
    | RestartOn => simp [QVariant.toMap, hr1, hr2 hmode, hmode, QVariant.toString]
    | RestartOff => simp [QVariant.toMap, hr1, hr3 hmode, hmode, QVariant.toString]
  · rw [f9]
    by_cases hcount : c.m_variants.count "standard" = c.m_variants.length
    · simp [QVariant.toMap, hv1, hcount]
    · simp [QVariant.toMap, hv1, hv2 hcount, hcount, QVariant.toStringList]

/-- The sample factory rebuilds every sample option from its serialised form. -/
theorem sampleOptionClass_rebuilds (o : String × String) :
    sampleOptionClass.createState (sampleOptionClass.variantOf o).toMap = some o := by
  obtain ⟨n, v⟩ := o
  rfl

theorem addOption_some (c c1 : EngineConfiguration) (p : EngineOptionPtr)
    (hc : c.addOption p = some c1) :
    p ≠ 0 ∧ c1 = { c with m_options := c.m_options ++ [p] } := by
  unfold addOption at hc
  by_cases hp : p ≠ 0
  · rw [if_pos hp] at hc
    exact ⟨hp, (Option.some.inj hc).symm⟩
  · rw [if_neg hp] at hc
    exact absurd hc (by simp)

theorem fieldUpdate_options (u : FieldUpdate) (c : EngineConfiguration) :
    (u.apply c).m_options = c.m_options := by
  cases u <;> rfl

/-- The copy loop only ever appends non-null pointers. -/
theorem copyOptions_loop_nonnull (cls : EngineOptionClass Obj) (h h1 : OptionHeap Obj)
    (c c1 : EngineConfiguration) (ps : List EngineOptionPtr)
    (hres : copyOptions_loop cls h c ps = some (h1, c1))
    (hc : ∀ p ∈ c.m_options, p ≠ 0) : ∀ p ∈ c1.m_options, p ≠ 0 := by
  induction ps generalizing h c with
  | nil =>
    simp only [copyOptions_loop, Option.some.injEq, Prod.mk.injEq] at hres
    rw [← hres.2]; exact hc
  | cons q ps ih =>
    unfold copyOptions_loop at hres
    cases hcopy : EngineOption.copy cls h q with
    | none => rw [hcopy] at hres; exact absurd hres (by simp)
    | some r =>
      obtain ⟨clone, h2⟩ := r
      simp only [hcopy] at hres
      cases hadd : c.addOption clone with
      | none => simp only [hadd] at hres; exact absurd hres (by simp)
      | some c2 =>
        simp only [hadd] at hres
        obtain ⟨hne, hc2⟩ := addOption_some c c2 clone hadd
        apply ih h2 c2 hres
        intro p hp
        rw [hc2] at hp
        rcases List.mem_append.1 hp with hp | hp
        · exact hc p hp
        · rw [List.mem_singleton.1 hp]; exact hne

theorem fromVariant_options_nonnull (cls : EngineOptionClass Obj) (h h1 : OptionHeap Obj)
    (v : QVariant) (c : EngineConfiguration)
    (hc : EngineConfiguration_QVariant cls h v = some (h1, c)) :
    ∀ p ∈ c.m_options, p ≠ 0 := by
  intro p hp
  have hlive := fromVariant_options_live cls h v h1 c hc p hp
  intro e
  rw [e] at hlive
  exact absurd hlive (by simp [OptionHeap.deref])

theorem operatorAssign_nonnull (cls : EngineOptionClass Obj) (h h1 : OptionHeap Obj)
    (i j : Nat) (c other c1 : EngineConfiguration)
    (hres : operatorAssign cls h i j c other = some (h1, c1))
    (hc : ∀ p ∈ c.m_options, p ≠ 0) : ∀ p ∈ c1.m_options, p ≠ 0 := by
  by_cases hij : i = j
  · subst hij
    simp only [operatorAssign, ne_eq, not_true_eq_false, if_false, Option.some.injEq,
      Prod.mk.injEq] at hres
    rw [← hres.2]; exact hc
  · rw [operatorAssign_distinct cls h i j c other hij] at hres
    cases hdel : qDeleteAll h c.m_options with
    | none => rw [hdel] at hres; exact absurd hres (by simp)
    | some hd =>
      rw [hdel] at hres
      exact copyOptions_loop_nonnull cls hd h1 _ c1 other.m_options hres (by simp)

theorem setOptions_some {Obj : Type} (h h1 : OptionHeap Obj) (c c1 : EngineConfiguration)
    (l : List EngineOptionPtr) (hres : setOptions h c l = some (h1, c1)) :
    qDeleteAll h c.m_options = some h1 ∧ c1 = { c with m_options := l } := by
  unfold setOptions at hres
  cases hdel : qDeleteAll h c.m_options with
  | none => rw [hdel] at hres; exact absurd hres (by simp)
  | some hd =>
    rw [hdel] at hres
    simp only [Option.some.injEq, Prod.mk.injEq] at hres
    exact ⟨by rw [hres.1], hres.2.symm⟩

/-- A step in which `addOption` and `setOptions` receive non-null pointers keeps every option
pointer non-null. -/
theorem step_nonnull (cls : EngineOptionClass Obj) (w w1 : World Obj)
    (hstep : Step cls nonNullOption nonNullList w w1) (hw : AllOptionsNonNull w) :
    AllOptionsNonNull w1 := by
  have hmem : ∀ {i : Nat} {c : EngineConfiguration}, w.configs[i]? = some c → c ∈ w.configs :=
    fun {i c} hc => List.getElem?_mem hc
  have hset : ∀ (i : Nat) (c1 : EngineConfiguration), (∀ p ∈ c1.m_options, p ≠ 0) →
      ∀ c ∈ w.configs.set i c1, ∀ p ∈ c.m_options, p ≠ 0 := by
    intro i c1 hc1 c hc
    rcases List.mem_or_eq_of_mem_set hc with hc | hc
    · exact hw c hc
    · rw [hc]; exact hc1
  have happ : ∀ (c1 : EngineConfiguration), (∀ p ∈ c1.m_options, p ≠ 0) →
      ∀ c ∈ w.configs ++ [c1], ∀ p ∈ c.m_options, p ≠ 0 := by
    intro c1 hc1 c hc
    rcases List.mem_append.1 hc with hc | hc
    · exact hw c hc
    · rw [List.mem_singleton.1 hc]; exact hc1
  cases hstep with
  | newOption o => exact hw
  | construct => exact happ _ (by simp [EngineConfiguration_default])
  | constructNamed name command protocol =>
    exact happ _ (by simp [EngineConfiguration_name_command_protocol])
  | constructFromVariant variant h1 c hc =>
    exact happ c (fromVariant_options_nonnull cls w.heap h1 variant c hc)
  | constructCopy i other h1 c hother hc =>
    exact happ c (copyOptions_loop_nonnull cls w.heap h1 _ c other.options hc (by simp))
  | update i c u hthis =>
    apply hset
    rw [fieldUpdate_options]
    exact hw c (hmem hthis)
  | addOption i c option c1 hthis hok hc =>
    apply hset
    obtain ⟨hne, hc1⟩ := addOption_some c c1 option hc
    rw [hc1]
    intro p hp
    rcases List.mem_append.1 hp with hp | hp
    · exact hw c (hmem hthis) p hp
    · rw [List.mem_singleton.1 hp]; exact hne
  | setOptions i c options h1 c1 hthis hok hc =>
    apply hset
    rw [(setOptions_some w.heap h1 c c1 options hc).2]
    exact hok
  | assign i j c other h1 c1 hthis hother hc =>
    apply hset
    exact operatorAssign_nonnull cls w.heap h1 i j c other c1 hc (hw c (hmem hthis))

theorem reachable_nonnull (cls : EngineOptionClass Obj) (w : World Obj)
    (hw : Reachable cls nonNullOption nonNullList w) : AllOptionsNonNull w := by
  induction hw with
  | start h => intro c hc; simp at hc
  | step w w1 _ hstep ih => exact step_nonnull cls w w1 hstep ih

theorem noSharedOption_symm (a b : EngineConfiguration) (hab : NoSharedOption a b) :
    NoSharedOption b a :=
  fun p hpb hpa => hab p hpa hpb

theorem live_of_clone_states (cls : EngineOptionClass Obj) (h h1 : OptionHeap Obj)
    (c c1 : EngineConfiguration) (hc : OptionsLive h c)
    (hst : optionStates h1 c1 = (optionStates h c).map (Option.map cls.copyState)) :
    OptionsLive h1 c1 := by
  intro p hp
  have hmem : h1.deref p ∈ optionStates h1 c1 := List.mem_map_of_mem _ hp
  rw [hst] at hmem
  obtain ⟨x, hx, hxe⟩ := List.mem_map.1 hmem
  obtain ⟨q, hq, hqe⟩ := List.mem_map.1 hx
  obtain ⟨o, ho⟩ := Option.isSome_iff_exists.1 (hc q hq)
  rw [← hxe, ← hqe, ho]
  rfl

/-- Exclusive ownership is kept when a configuration is added whose options are live, pairwise
distinct and at addresses above the old heap, the old addresses reading as before. -/
theorem exclusive_append (h h1 : OptionHeap Obj) (cs : List EngineConfiguration)
    (c1 : EngineConfiguration) (hw : ExclusiveOwnership ⟨h, cs⟩)
    (hold : ∀ q, q ≤ List.length h → h1.deref q = h.deref q)
    (hown : OwnsOptions h1 c1) (hnew : ∀ p ∈ c1.m_options, List.length h + 1 ≤ p) :
    ExclusiveOwnership ⟨h1, cs ++ [c1]⟩ := by
  have hle : ∀ c ∈ cs, ∀ p ∈ c.m_options, p ≤ List.length h :=
    fun c hc => live_le_length h c (hw.1 c hc).1
  have hsep : ∀ c ∈ cs, NoSharedOption c c1 := by
    intro c hc p hp hp1
    exact Nat.not_succ_le_self _ (Nat.le_trans (hnew p hp1) (hle c hc p hp))
  constructor
  · intro c hc
    rcases List.mem_append.1 hc with hc | hc
    · refine ⟨?_, (hw.1 c hc).2⟩
      intro p hp
      rw [hold p (hle c hc p hp)]
      exact (hw.1 c hc).1 p hp
    · rw [List.mem_singleton.1 hc]; exact hown
  · intro i j a b hij ha hb
    simp only [List.getElem?_append] at ha hb
    by_cases hi : i < cs.length <;> by_cases hj : j < cs.length
    · rw [if_pos hi] at ha
      rw [if_pos hj] at hb
      exact hw.2 i j a b hij ha hb
    · rw [if_pos hi] at ha
      rw [if_neg hj] at hb
      have hb1 : b = c1 := by
        have := List.getElem?_mem hb
        exact List.mem_singleton.1 this
      rw [hb1]
      exact hsep a (List.getElem?_mem ha)
    · rw [if_neg hi] at ha
      rw [if_pos hj] at hb
      have ha1 : a = c1 := by
        have := List.getElem?_mem ha
        exact List.mem_singleton.1 this
      rw [ha1]
      exact noSharedOption_symm _ _ (hsep b (List.getElem?_mem hb))
    · rw [if_neg hi] at ha
      rw [if_neg hj] at hb
      have hi0 : i - cs.length = 0 := by
        by_contra hne
        obtain ⟨k, hk⟩ := Nat.exists_eq_succ_of_ne_zero hne
        rw [hk] at ha
        simp at ha
      have hj0 : j - cs.length = 0 := by
        by_contra hne
        obtain ⟨k, hk⟩ := Nat.exists_eq_succ_of_ne_zero hne
        rw [hk] at hb
        simp at hb
      exact absurd (by omega : i = j) hij

/-- Exclusive ownership is kept when the configuration at one address is replaced by one that
owns its options in the new heap and shares none with the others, whose options stay live. -/
theorem exclusive_set (h h1 : OptionHeap Obj) (cs : List EngineConfiguration) (i : Nat)
    (c1 : EngineConfiguration) (hw : ExclusiveOwnership ⟨h, cs⟩)
    (hown : OwnsOptions h1 c1)
    (hkeep : ∀ (k : Nat) (d : EngineConfiguration), k ≠ i → cs[k]? = some d →
      OptionsLive h1 d)
    (hsep : ∀ (k : Nat) (d : EngineConfiguration), k ≠ i → cs[k]? = some d →
      NoSharedOption c1 d) :
    ExclusiveOwnership ⟨h1, cs.set i c1⟩ := by
  have hget : ∀ (k : Nat) (d : EngineConfiguration), (cs.set i c1)[k]? = some d →
      (k = i ∧ d = c1) ∨ (k ≠ i ∧ cs[k]? = some d) := by
    intro k d hd
    rw [List.getElem?_set] at hd
    by_cases hik : i = k
    · rw [if_pos hik] at hd
      left
      refine ⟨hik.symm, ?_⟩
      by_cases hlt : i < cs.length
      · rw [if_pos hlt] at hd
        exact (Option.some.inj hd).symm
      · rw [if_neg hlt] at hd
        exact absurd hd (by simp)
    · rw [if_neg hik] at hd
      exact Or.inr ⟨fun e => hik e.symm, hd⟩
  constructor
  · intro c hc
    obtain ⟨k, hk⟩ := List.getElem?_of_mem hc
    rcases hget k c hk with ⟨-, hc1⟩ | ⟨hki, hck⟩
    · rw [hc1]; exact hown
    · exact ⟨hkeep k c hki hck, (hw.1 c (List.getElem?_mem hck)).2⟩
  · intro k l a b hkl ha hb
    rcases hget k a ha with ⟨hk, ha1⟩ | ⟨hk, ha1⟩ <;>
      rcases hget l b hb with ⟨hl, hb1⟩ | ⟨hl, hb1⟩
    · exact absurd (hk.trans hl.symm) hkl
    · rw [ha1]; exact hsep l b hl hb1
    · rw [hb1]; exact noSharedOption_symm _ _ (hsep k a hk ha1)
    · exact hw.2 k l a b hkl ha1 hb1

/-- A step in which `addOption` and `setOptions` receive live options that no configuration
holds keeps exclusive ownership. -/
theorem step_exclusive (cls : EngineOptionClass Obj) (w w1 : World Obj)
    (hstep : Step cls unheldOption unheldList w w1) (hw : ExclusiveOwnership w) :
    ExclusiveOwnership w1 := by
  obtain ⟨h, cs⟩ := w
  have hle : ∀ c ∈ cs, ∀ p ∈ c.m_options, p ≤ List.length h :=
    fun c hc => live_le_length h c (hw.1 c hc).1
  have hrange : ∀ (n : Nat), ∀ p ∈ List.range' (List.length h + 1) n,
      List.length h + 1 ≤ p := fun n p hp => (List.mem_range'_1.1 hp).1
  cases hstep with
  | newOption o =>
    have hold : ∀ q, q ≤ List.length h → OptionHeap.deref (h ++ [some o]) q = h.deref q :=
      fun q hq => OptionHeap.deref_append h _ q hq
    constructor
    · intro c hc
      refine ⟨?_, (hw.1 c hc).2⟩
      intro p hp
      show (OptionHeap.deref (h ++ [some o]) p).isSome = true
      rw [hold p (hle c hc p hp)]
      exact (hw.1 c hc).1 p hp
    · exact hw.2
  | construct =>
    exact exclusive_append h h cs _ hw (fun _ _ => rfl)
      ⟨fun p hp => by simp [EngineConfiguration_default] at hp, List.nodup_nil⟩
      (fun p hp => by simp [EngineConfiguration_default] at hp)
  | constructNamed name command protocol =>
    exact exclusive_append h h cs _ hw (fun _ _ => rfl)
      ⟨fun p hp => by simp [EngineConfiguration_name_command_protocol] at hp, List.nodup_nil⟩
      (fun p hp => by simp [EngineConfiguration_name_command_protocol] at hp)
  | constructFromVariant variant h1 c hc =>
    have hlive := fromVariant_options_live cls h variant h1 c hc
    obtain ⟨c', hc', -, -, -, -, -, -, -, -, -, f10⟩ :=
      EngineConfiguration_QVariant_fields cls h variant _ rfl
    have heq := hc.symm.trans hc'
    simp only [Option.some.injEq, Prod.mk.injEq] at heq
    obtain ⟨hh, hcc⟩ := heq
    subst hcc
    refine exclusive_append h h1 cs c hw ?_ ⟨hlive, ?_⟩ ?_
    · intro q hq
      rw [hh]
      exact OptionHeap.deref_append h _ q hq
    · rw [f10]; exact List.nodup_range' _ _
    · rw [f10]; exact hrange _
  | constructCopy i other h1 c hother hc =>
    have hmem := List.getElem?_mem hother
    obtain ⟨objs, hobjs⟩ := OptionHeap.exists_states h other.m_options (hw.1 other hmem).1
    obtain ⟨h1', c', hc', -, hce, hst, hold⟩ := copy_result cls h
      { other with m_options := [] } other.m_options objs rfl hobjs
    have heq : some (h1, c) = some (h1', c') := hc.symm.trans hc'
    simp only [Option.some.injEq, Prod.mk.injEq] at heq
    obtain ⟨hh, hcc⟩ := heq
    subst hh hcc
    have hopts : c.m_options = List.range' (List.length h + 1) other.m_options.length := by
      rw [hce]
    refine exclusive_append h h1 cs c hw hold ⟨?_, ?_⟩ ?_
    · exact live_of_clone_states cls h h1 other c (hw.1 other hmem).1 hst
    · rw [hopts]; exact List.nodup_range' _ _
    · rw [hopts]; exact hrange _
  | update i c u hthis =>
    have hmem := List.getElem?_mem hthis
    refine exclusive_set h h cs i _ hw ?_ ?_ ?_
    · unfold OwnsOptions OptionsLive
      rw [fieldUpdate_options]
      exact hw.1 c hmem
    · intro k d _ hd
      exact (hw.1 d (List.getElem?_mem hd)).1
    · intro k d hk hd p hp
      rw [fieldUpdate_options] at hp
      exact hw.2 i k c d (fun e => hk e.symm) hthis hd p hp
  | addOption i c option c1 hthis hok hc =>
    have hmem := List.getElem?_mem hthis
    obtain ⟨-, hc1⟩ := addOption_some c c1 option hc
    subst hc1
    refine exclusive_set h h cs i _ hw ⟨?_, ?_⟩ ?_ ?_
    · intro p hp
      rcases List.mem_append.1 hp with hp | hp
      · exact (hw.1 c hmem).1 p hp
      · rw [List.mem_singleton.1 hp]; exact hok.1
    · show (c.m_options ++ [option]).Nodup
      rw [List.nodup_append]
      refine ⟨(hw.1 c hmem).2, List.nodup_singleton _, ?_⟩
      intro a ha hb
      rw [List.mem_singleton.1 hb] at ha
      exact hok.2 c hmem ha
    · intro k d _ hd
      exact (hw.1 d (List.getElem?_mem hd)).1
    · intro k d hk hd p hp
      rcases List.mem_append.1 hp with hp | hp
      · exact hw.2 i k c d (fun e => hk e.symm) hthis hd p hp
      · rw [List.mem_singleton.1 hp]
        exact hok.2 d (List.getElem?_mem hd)
  | setOptions i c options h1 c1 hthis hok hc =>
    have hmem := List.getElem?_mem hthis
    obtain ⟨hdel, hc1⟩ := setOptions_some h h1 c c1 options hc
    subst hc1
    obtain ⟨h1', hdel', -, hderef⟩ := qDeleteAll_of_owned h c.m_options (hw.1 c hmem).1
      (hw.1 c hmem).2
    have hh : h1 = h1' := Option.some.inj (hdel.symm.trans hdel')
    subst hh
    refine exclusive_set h h1 cs i _ hw ⟨?_, hok.1⟩ ?_ ?_
    · intro p hp
      have hpc : p ∉ c.m_options := (hok.2 p hp).2 c hmem
      rw [hderef p, if_neg hpc]
      exact (hok.2 p hp).1
    · intro k d hk hd p hp
      have hpc : p ∉ c.m_options :=
        fun hpc => hw.2 i k c d (fun e => hk e.symm) hthis hd p hpc hp
      rw [hderef p, if_neg hpc]
      exact (hw.1 d (List.getElem?_mem hd)).1 p hp
    · intro k d _ hd p hp
      exact (hok.2 p hp).2 d (List.getElem?_mem hd)
  | assign i j c other h1 c1 hthis hother hc =>
    have hmem := List.getElem?_mem hthis
    have hmemo := List.getElem?_mem hother
    by_cases hij : i = j
    · subst hij
      simp only [operatorAssign, ne_eq, not_true_eq_false, if_false, Option.some.injEq,
        Prod.mk.injEq] at hc
      obtain ⟨hh, hcc⟩ := hc
      subst hh hcc
      refine exclusive_set h h cs i c hw (hw.1 c hmem) ?_ ?_
      · intro k d _ hd
        exact (hw.1 d (List.getElem?_mem hd)).1
      · intro k d hk hd
        exact hw.2 i k c d (fun e => hk e.symm) hthis hd
    · obtain ⟨hd, h1', c1', hres, -, hderef, hold, hce, hst⟩ :=
        assign_result cls h i j c other hij (hw.1 c hmem) (hw.1 other hmemo).1
          (hw.2 i j c other hij hthis hother)
      have heq : some (h1, c1) = some (h1', c1') := hc.symm.trans hres
      simp only [Option.some.injEq, Prod.mk.injEq] at heq
      obtain ⟨hh, hcc⟩ := heq
      subst hh hcc
      have hopts : c1.m_options = List.range' (List.length h + 1) other.m_options.length := by
        rw [hce]
      refine exclusive_set h h1 cs i c1 hw ⟨?_, ?_⟩ ?_ ?_
      · exact live_of_clone_states cls h h1 other c1 (hw.1 other hmemo).1 hst
      · rw [hopts]; exact List.nodup_range' _ _
      · intro k d hk hdk p hp
        have hdm := List.getElem?_mem hdk
        have hpc : p ∉ c.m_options :=
          fun hpc => hw.2 i k c d (fun e => hk e.symm) hthis hdk p hpc hp
        rw [hold p (hle d hdm p hp), hderef p, if_neg hpc]
        exact (hw.1 d hdm).1 p hp
      · intro k d _ hdk p hp hpd
        rw [hopts] at hp
        exact Nat.not_succ_le_self _
          (Nat.le_trans (hrange _ p hp) (hle d (List.getElem?_mem hdk) p hpd))

theorem reachable_exclusive (cls : EngineOptionClass Obj) (w : World Obj)
    (hw : Reachable cls unheldOption unheldList w) : ExclusiveOwnership w := by
  induction hw with
  | start h =>
    constructor
    · intro c hc; simp at hc
    · intro i j a b _ ha; simp at ha
  | step w w1 _ hstep ih => exact step_exclusive cls w w1 hstep ih

end HeapLemmas

/-! ## Claims -/


open EngineConfiguration RestartMode

section Claims

variable {Obj : Type}

/-- C1. Round trip with explicit values: for a configuration whose option pointers are live
and whose variants list has an element other than "standard", `toVariant` returns a map, the
map constructor applied to that map returns a configuration with the same name, command,
working directory, protocol, init strings, white-POV flag, restart mode and variants, and the
map holds `whitepov = true` when the flag is set, `restart = "on"` when the mode is
`RestartOn`, and the variants list under `variants`. -/
theorem roundtrip_explicit_values (cls : EngineOptionClass Obj) (h : OptionHeap Obj)
    (c : EngineConfiguration) (hlive : OptionsLive h c)
    (hvar : ∃ s ∈ c.m_variants, s ≠ "standard") :
    ∃ (m : QVariantMap) (h1 : OptionHeap Obj) (c1 : EngineConfiguration),
      toVariant cls h c = some (QVariant.map m) ∧
      EngineConfiguration_QVariant cls h (QVariant.map m) = some (h1, c1) ∧
      c1.m_name = c.m_name ∧ c1.m_command = c.m_command ∧
      c1.m_workingDirectory = c.m_workingDirectory ∧ c1.m_protocol = c.m_protocol ∧
      c1.m_initStrings = c.m_initStrings ∧ c1.m_whiteEvalPov = c.m_whiteEvalPov ∧
      c1.m_restartMode = c.m_restartMode ∧ c1.m_variants = c.m_variants ∧
      (c.m_whiteEvalPov = true →
        m.contains "whitepov" = true ∧ m.value "whitepov" = QVariant.bool true) ∧
      (c.m_restartMode = RestartOn →
        m.contains "restart" = true ∧ m.value "restart" = QVariant.string "on") ∧
      (m.contains "variants" = true ∧ m.value "variants" = QVariant.stringList c.m_variants) := by
  obtain ⟨objs, hobjs⟩ := OptionHeap.exists_states h c.m_options hlive
  obtain ⟨m, hm, ⟨-, hn⟩, ⟨-, hc⟩, ⟨-, hw⟩, ⟨-, hp⟩, ⟨hi1, hi2⟩, ⟨hwp1, hwp2⟩, ⟨hr1, hr2, hr3⟩,
    ⟨hv1, hv2⟩, -⟩ := toVariant_keys cls h c objs hobjs
  obtain ⟨c1, hc1, f1, f2, f3, f4, -, f6, f7, f8, f9, -⟩ :=
    EngineConfiguration_QVariant_fields cls h (QVariant.map m) _ rfl
  have hcount := (count_standard_ne_length_iff c.m_variants).2 hvar
  refine ⟨m, _, c1, hm, hc1, ?_, ?_, ?_, ?_, ?_, ?_, ?_, ?_, ?_, ?_, ?_⟩
  · simp [f1, QVariant.toMap, hn, QVariant.toString]
  · simp [f2, QVariant.toMap, hc, QVariant.toString]
  · simp [f3, QVariant.toMap, hw, QVariant.toString]
  · simp [f4, QVariant.toMap, hp, QVariant.toString]
  · rw [f6]
    by_cases he : c.m_initStrings = []
    · simp [QVariant.toMap, hi1, he]
    · have : c.m_initStrings.isEmpty = false := by
        cases hl : c.m_initStrings with
        | nil => exact absurd hl he
        | cons a l => rfl
      simp [QVariant.toMap, hi1, hi2 he, this, QVariant.toStringList]
  · rw [f7]
    cases hb : c.m_whiteEvalPov with
    | false => simp [QVariant.toMap, hwp1, hb]
    | true => simp [QVariant.toMap, hwp1, hwp2 hb, hb, QVariant.toBool]
  · rw [f8]
    cases hmode : c.m_restartMode with
    | RestartAuto => simp [QVariant.toMap, hr1, hmode]
    | RestartOn => simp [QVariant.toMap, hr1, hr2 hmode, hmode, QVariant.toString]
    | RestartOff => simp [QVariant.toMap, hr1, hr3 hmode, hmode, QVariant.toString]
  · rw [f9]
    simp [QVariant.toMap, hv1, hv2 hcount, hcount, QVariant.toStringList]
  · intro hb
    exact ⟨by rw [hwp1, hb], hwp2 hb⟩
  · intro hmode
    exact ⟨by simp [hr1, hmode], hr2 hmode⟩
  · exact ⟨by simp [hv1, hcount], hv2 hcount⟩

/-- C1 at the configuration named in the claim: Stockfish, `/usr/bin/stockfish`, `uci`,
white-POV set, restart mode on, variants "standard" and "chess960". -/
theorem roundtrip_explicit_values_stockfish :
    OptionsLive sampleHeap stockfish ∧ (∃ s ∈ stockfish.m_variants, s ≠ "standard") ∧
    ∃ (m : QVariantMap) (h1 : OptionHeap (String × String)) (c1 : EngineConfiguration),
      toVariant sampleOptionClass sampleHeap stockfish = some (QVariant.map m) ∧
      EngineConfiguration_QVariant sampleOptionClass sampleHeap (QVariant.map m) = some (h1, c1) ∧
      c1.m_name = "Stockfish" ∧ c1.m_command = "/usr/bin/stockfish" ∧ c1.m_protocol = "uci" ∧
      c1.m_whiteEvalPov = true ∧ c1.m_restartMode = RestartOn ∧
      c1.m_variants = ["standard", "chess960"] ∧
      m.value "whitepov" = QVariant.bool true ∧
      m.value "restart" = QVariant.string "on" ∧
      m.value "variants" = QVariant.stringList ["standard", "chess960"] := by
  refine ⟨by decide, by decide, ?_⟩
  obtain ⟨m, h1, c1, hm, hc1, f1, f2, -, f4, -, f6, f7, f8, g1, g2, g3⟩ :=
    roundtrip_explicit_values sampleOptionClass sampleHeap stockfish (by decide) (by decide)
  exact ⟨m, h1, c1, hm, hc1, f1, f2, f4, f6, f7, f8, (g1 rfl).2, (g2 rfl).2, g3.2⟩

/-- C2. Round trip at the defaults: for a configuration with live option pointers, restart mode
`RestartAuto` and variants `["standard"]`, the map returned by `toVariant` has neither a
`restart` nor a `variants` key, and the map constructor applied to it returns a configuration
with the same name, command, working directory, protocol, init strings and white-POV flag
whose options have, in order, the same states as the original ones, provided the factory
rebuilds each of the configuration's options from its serialised form. -/
theorem roundtrip_defaults (cls : EngineOptionClass Obj) (h : OptionHeap Obj)
    (c : EngineConfiguration) (hlive : OptionsLive h c)
    (hmode : c.m_restartMode = RestartAuto) (hvar : c.m_variants = ["standard"])
    (hfactory : ∀ p ∈ c.m_options, ∀ o, h.deref p = some o →
      cls.createState (cls.variantOf o).toMap = some o) :
    ∃ (m : QVariantMap) (h1 : OptionHeap Obj) (c1 : EngineConfiguration),
      toVariant cls h c = some (QVariant.map m) ∧
      m.contains "restart" = false ∧ m.contains "variants" = false ∧
      EngineConfiguration_QVariant cls h (QVariant.map m) = some (h1, c1) ∧
      c1.m_name = c.m_name ∧ c1.m_command = c.m_command ∧
      c1.m_workingDirectory = c.m_workingDirectory ∧ c1.m_protocol = c.m_protocol ∧
      c1.m_initStrings = c.m_initStrings ∧ c1.m_whiteEvalPov = c.m_whiteEvalPov ∧
      c1.m_options.length = c.m_options.length ∧
      optionStates h1 c1 = optionStates h c := by
  obtain ⟨objs, hobjs⟩ := OptionHeap.exists_states h c.m_options hlive
  obtain ⟨m, hm, ⟨-, hn⟩, ⟨-, hc⟩, ⟨-, hw⟩, ⟨-, hp⟩, ⟨hi1, hi2⟩, ⟨hwp1, hwp2⟩, ⟨hr1, -, -⟩,
    ⟨hv1, -⟩, ⟨ho1, ho2⟩⟩ := toVariant_keys cls h c objs hobjs
  obtain ⟨c1, hc1, f1, f2, f3, f4, -, f6, f7, -, -, f10⟩ :=
    EngineConfiguration_QVariant_fields cls h (QVariant.map m) _ rfl
  have hlen : objs.length = c.m_options.length := by
    have := congrArg List.length hobjs
    simpa using this.symm
  have hrebuilt : ∀ o ∈ objs, cls.createState (cls.variantOf o).toMap = some o := by
    intro o ho
    have hmem : some o ∈ c.m_options.map h.deref := by
      rw [hobjs]; exact List.mem_map_of_mem _ ho
    obtain ⟨p, hp, hpo⟩ := List.mem_map.1 hmem
    exact hfactory p hp o hpo
  have hnews : (if (QVariant.map m).toMap.contains "options" = true then
      ((QVariant.map m).toMap.value "options").toList.filterMap
        (fun x => cls.createState x.toMap) else []) = objs := by
    by_cases he : c.m_options = []
    · have : objs = [] := by
        rw [he] at hlen; exact List.length_eq_zero.1 hlen
      simp [QVariant.toMap, ho1, he, this]
    · have hne : c.m_options.isEmpty = false := by
        cases hl : c.m_options with
        | nil => exact absurd hl he
        | cons a l => rfl
      simp only [QVariant.toMap, ho1, hne, ho2 he, QVariant.toList, Bool.not_false, if_true]
      rw [List.filterMap_map]
      have : ∀ l : List Obj, (∀ o ∈ l, cls.createState (cls.variantOf o).toMap = some o) →
          l.filterMap ((fun x => cls.createState x.toMap) ∘ cls.variantOf) = l := by
        intro l hl
        induction l with
        | nil => rfl
        | cons a l ih =>
          rw [List.filterMap_cons]
          simp only [Function.comp, hl a (List.mem_cons_self _ _)]
          rw [ih (fun o ho => hl o (List.mem_cons_of_mem _ ho))]
      exact this objs hrebuilt
  rw [hnews] at hc1 f10
  refine ⟨m, _, c1, hm, ?_, ?_, hc1, ?_, ?_, ?_, ?_, ?_, ?_, ?_, ?_⟩
  · simp [hr1, hmode]
  · simp [hv1, hvar]
  · simp [f1, QVariant.toMap, hn, QVariant.toString]
  · simp [f2, QVariant.toMap, hc, QVariant.toString]
  · simp [f3, QVariant.toMap, hw, QVariant.toString]
  · simp [f4, QVariant.toMap, hp, QVariant.toString]
  · rw [f6]
    by_cases he : c.m_initStrings = []
    · simp [QVariant.toMap, hi1, he]
    · have : c.m_initStrings.isEmpty = false := by
        cases hl : c.m_initStrings with
        | nil => exact absurd hl he
        | cons a l => rfl
      simp [QVariant.toMap, hi1, hi2 he, this, QVariant.toStringList]
  · rw [f7]
    cases hb : c.m_whiteEvalPov with
    | false => simp [QVariant.toMap, hwp1, hb]
    | true => simp [QVariant.toMap, hwp1, hwp2 hb, hb, QVariant.toBool]
  · rw [f10, hlen]; simp
  · unfold optionStates
    rw [f10, hobjs]
    have := OptionHeap.map_deref_range h (objs.map some)
    simpa using this

/-- C2 on a default-constructed configuration given a name, an init string and the two
sample options. -/
theorem roundtrip_defaults_sample :
    OptionsLive sampleHeap
        { EngineConfiguration_default with
          m_name := "Crafty", m_initStrings := ["log off"], m_options := [1, 2] } ∧
    ∃ (m : QVariantMap) (h1 : OptionHeap (String × String)) (c1 : EngineConfiguration),
      toVariant sampleOptionClass sampleHeap
        { EngineConfiguration_default with
          m_name := "Crafty", m_initStrings := ["log off"], m_options := [1, 2] }
        = some (QVariant.map m) ∧
      m.contains "restart" = false ∧ m.contains "variants" = false ∧
      EngineConfiguration_QVariant sampleOptionClass sampleHeap (QVariant.map m) = some (h1, c1) ∧
      c1.m_name = "Crafty" ∧ c1.m_initStrings = ["log off"] ∧
      optionStates h1 c1 = [some ("Hash", "16"), some ("Ponder", "false")] := by
  refine ⟨by decide, ?_⟩
  obtain ⟨m, h1, c1, hm, g1, g2, hc1, f1, -, -, -, f5, -, -, f7⟩ :=
    roundtrip_defaults sampleOptionClass sampleHeap
      { EngineConfiguration_default with
        m_name := "Crafty", m_initStrings := ["log off"], m_options := [1, 2] }
      (by decide) rfl rfl (by decide)
  exact ⟨m, h1, c1, hm, g1, g2, hc1, f1, f5, f7⟩

/-- C3. The `variants` key: for a configuration with live option pointers, the map returned
by `toVariant` has the key `variants` exactly when some element of the variants list differs
from "standard", its value is then the variants list itself, and the lists
`["standard", "standard"]`, `[]` and `["standard"]` are all left out of the map. -/
theorem toVariant_variants_key (cls : EngineOptionClass Obj) (h : OptionHeap Obj)
    (c : EngineConfiguration) (hlive : OptionsLive h c) :
    ∃ m : QVariantMap, toVariant cls h c = some (QVariant.map m) ∧
      (m.contains "variants" = true ↔ ∃ s ∈ c.m_variants, s ≠ "standard") ∧
      (m.contains "variants" = true → m.value "variants" = QVariant.stringList c.m_variants) ∧
      (c.m_variants = ["standard", "standard"] → m.contains "variants" = false) ∧
      (c.m_variants = [] → m.contains "variants" = false) ∧
      (c.m_variants = ["standard"] → m.contains "variants" = false) := by
  obtain ⟨objs, hobjs⟩ := OptionHeap.exists_states h c.m_options hlive
  obtain ⟨m, hm, -, -, -, -, -, -, -, ⟨hv1, hv2⟩, -⟩ := toVariant_keys cls h c objs hobjs
  refine ⟨m, hm, ?_, ?_, ?_, ?_, ?_⟩
  · rw [hv1, decide_eq_true_iff]
    exact count_standard_ne_length_iff c.m_variants
  · intro hk
    rw [hv1, decide_eq_true_iff] at hk
    exact hv2 hk
  · intro he; simp [hv1, he]
  · intro he; simp [hv1, he]
  · intro he; simp [hv1, he]

/-- C3 on the sample configuration with the variants list `["standard", "standard"]`. -/
theorem toVariant_variants_key_repeated_standard :
    OptionsLive sampleHeap { stockfish with m_variants := ["standard", "standard"] } ∧
    ∃ m : QVariantMap,
      toVariant sampleOptionClass sampleHeap
        { stockfish with m_variants := ["standard", "standard"] } = some (QVariant.map m) ∧
      m.contains "variants" = false := by
  refine ⟨by decide, ?_⟩
  obtain ⟨m, hm, -, -, g, -, -⟩ :=
    toVariant_variants_key sampleOptionClass sampleHeap
      { stockfish with m_variants := ["standard", "standard"] } (by decide)
  exact ⟨m, hm, g rfl⟩

/-- C4. Rejected option maps are skipped: for a map whose `options` key holds a list `l`, the
map constructor returns a configuration, and the states of its options are, in the order of
`l`, exactly the options the factory built from the elements it accepted; the number of
options is the number of accepted elements, so a list of one accepted and one rejected
element, in either order, gives exactly one option. -/
theorem fromVariant_skips_rejected_options (cls : EngineOptionClass Obj) (h : OptionHeap Obj)
    (m : QVariantMap) (l : List QVariant)
    (hkey : m.contains "options" = true) (hval : m.value "options" = QVariant.list l) :
    ∃ (h1 : OptionHeap Obj) (c : EngineConfiguration),
      EngineConfiguration_QVariant cls h (QVariant.map m) = some (h1, c) ∧
      optionStates h1 c = (l.filterMap fun v => cls.createState v.toMap).map some ∧
      c.m_options.length = (l.filter fun v => (cls.createState v.toMap).isSome).length ∧
      (∀ good bad : QVariant, (cls.createState good.toMap).isSome = true →
        cls.createState bad.toMap = none → (l = [good, bad] ∨ l = [bad, good]) →
        c.m_options.length = 1) := by
  obtain ⟨c, hc, -, -, -, -, -, -, -, -, -, f10⟩ :=
    EngineConfiguration_QVariant_fields cls h (QVariant.map m) _ rfl
  have hnews : (if (QVariant.map m).toMap.contains "options" = true then
      ((QVariant.map m).toMap.value "options").toList.filterMap
        (fun x => cls.createState x.toMap) else []) =
      l.filterMap fun v => cls.createState v.toMap := by
    simp [QVariant.toMap, hkey, hval, QVariant.toList]
  rw [hnews] at hc f10
  have hlen : c.m_options.length = (l.filter fun v => (cls.createState v.toMap).isSome).length := by
    rw [f10, List.length_range']
    clear hval hc f10 hnews
    induction l with
    | nil => rfl
    | cons v l ih =>
      cases hv : cls.createState v.toMap with
      | none => simp [List.filterMap_cons, List.filter_cons, hv, ih]
      | some o => simp [List.filterMap_cons, List.filter_cons, hv, ih]
  refine ⟨_, c, hc, ?_, hlen, ?_⟩
  · unfold optionStates
    rw [f10]
    have := OptionHeap.map_deref_range h ((l.filterMap fun v => cls.createState v.toMap).map some)
    simpa using this
  · intro good bad hgood hbad hl
    rw [hlen]
    rcases hl with hl | hl <;> simp [hl, List.filter_cons, hgood, hbad]

/-- C4 on an `options` list with a well-formed sample option followed by a map that has no
`name`: the configuration has exactly one option, the well-formed one. -/
theorem fromVariant_skips_rejected_options_sample :
    ∃ (h1 : OptionHeap (String × String)) (c : EngineConfiguration),
      EngineConfiguration_QVariant sampleOptionClass []
        (QVariant.map [("options", QVariant.list
          [QVariant.map [("name", QVariant.string "Hash"), ("value", QVariant.string "16")],
           QVariant.map [("value", QVariant.string "7")]])]) = some (h1, c) ∧
      optionStates h1 c = [some ("Hash", "16")] ∧
      c.m_options.length = 1 := by
  obtain ⟨h1, c, hc, hs, -, hone⟩ :=
    fromVariant_skips_rejected_options sampleOptionClass []
      [("options", QVariant.list
          [QVariant.map [("name", QVariant.string "Hash"), ("value", QVariant.string "16")],
           QVariant.map [("value", QVariant.string "7")]])]
      [QVariant.map [("name", QVariant.string "Hash"), ("value", QVariant.string "16")],
           QVariant.map [("value", QVariant.string "7")]] rfl rfl
  exact ⟨h1, c, hc, hs,
    hone (QVariant.map [("name", QVariant.string "Hash"), ("value", QVariant.string "16")])
      (QVariant.map [("value", QVariant.string "7")]) rfl rfl (Or.inl rfl)⟩

/-- C5. Absent keys leave the defaults: the map constructor always returns a configuration;
its name, command, working directory and protocol are empty when their keys are absent, its
init strings are empty when `initStrings` is absent, its white-POV flag is false when
`whitepov` is absent, its restart mode is `RestartAuto` when `restart` is absent, its variants
are `["standard"]` when `variants` is absent, and it has no options (and the heap is as before)
when `options` is absent; built from the empty map, it is the default-constructed
configuration. -/
theorem fromVariant_absent_keys_default (cls : EngineOptionClass Obj) (h : OptionHeap Obj)
    (m : QVariantMap) :
    (∃ (h1 : OptionHeap Obj) (c : EngineConfiguration),
      EngineConfiguration_QVariant cls h (QVariant.map m) = some (h1, c) ∧
      (m.contains "name" = false → c.m_name = "") ∧
      (m.contains "command" = false → c.m_command = "") ∧
      (m.contains "workingDirectory" = false → c.m_workingDirectory = "") ∧
      (m.contains "protocol" = false → c.m_protocol = "") ∧
      (m.contains "initStrings" = false → c.m_initStrings = []) ∧
      (m.contains "whitepov" = false → c.m_whiteEvalPov = false) ∧
      (m.contains "restart" = false → c.m_restartMode = RestartAuto) ∧
      (m.contains "variants" = false → c.m_variants = ["standard"]) ∧
      (m.contains "options" = false → c.m_options = [] ∧ h1 = h)) ∧
    EngineConfiguration_QVariant cls h (QVariant.map []) = some (h, EngineConfiguration_default) := by
  constructor
  · obtain ⟨c, hc, f1, f2, f3, f4, -, f6, f7, f8, f9, f10⟩ :=
      EngineConfiguration_QVariant_fields cls h (QVariant.map m) _ rfl
    refine ⟨_, c, hc, ?_, ?_, ?_, ?_, ?_, ?_, ?_, ?_, ?_⟩
    · intro hk
      simp [f1, QVariant.toMap, QVariantMap.value_of_not_contains m _ hk, QVariant.toString]
    · intro hk
      simp [f2, QVariant.toMap, QVariantMap.value_of_not_contains m _ hk, QVariant.toString]
    · intro hk
      simp [f3, QVariant.toMap, QVariantMap.value_of_not_contains m _ hk, QVariant.toString]
    · intro hk
      simp [f4, QVariant.toMap, QVariantMap.value_of_not_contains m _ hk, QVariant.toString]
    · intro hk; simp [f6, QVariant.toMap, hk]
    · intro hk; simp [f7, QVariant.toMap, hk]
    · intro hk; simp [f8, QVariant.toMap, hk]
    · intro hk; simp [f9, QVariant.toMap, hk]
    · intro hk; simp [f10, QVariant.toMap, hk]
  · rfl

/-- C6. The copy constructor: for a configuration `a` with live option pointers it returns a
configuration `b` with the same name, command, working directory, protocol, arguments, init
strings, variants, white-POV flag and restart mode; `b` has as many options as `a`, the state
of its i-th option is the clone (`copy()`) of the state of the i-th option of `a`, and the
options of `a` are as before. -/
theorem copy_constructor_copies (cls : EngineOptionClass Obj) (h : OptionHeap Obj)
    (a : EngineConfiguration) (hlive : OptionsLive h a) :
    ∃ (h1 : OptionHeap Obj) (b : EngineConfiguration),
      EngineConfiguration_copy cls h a = some (h1, b) ∧
      b.m_name = a.m_name ∧ b.m_command = a.m_command ∧
      b.m_workingDirectory = a.m_workingDirectory ∧ b.m_protocol = a.m_protocol ∧
      b.m_arguments = a.m_arguments ∧ b.m_initStrings = a.m_initStrings ∧
      b.m_variants = a.m_variants ∧ b.m_whiteEvalPov = a.m_whiteEvalPov ∧
      b.m_restartMode = a.m_restartMode ∧
      b.m_options.length = a.m_options.length ∧
      optionStates h1 b = (optionStates h a).map (Option.map cls.copyState) ∧
      optionStates h1 a = optionStates h a := by
  obtain ⟨objs, hobjs⟩ := OptionHeap.exists_states h a.m_options hlive
  obtain ⟨h1, b, hb, -, hbe, hst, hold⟩ := copy_result cls h
    { m_name := a.m_name, m_command := a.m_command,
      m_workingDirectory := a.m_workingDirectory, m_protocol := a.m_protocol,
      m_arguments := a.m_arguments, m_initStrings := a.m_initStrings,
      m_variants := a.m_variants, m_whiteEvalPov := a.m_whiteEvalPov,
      m_restartMode := a.m_restartMode, m_options := [] } a.m_options objs rfl hobjs
  refine ⟨h1, b, hb, ?_, ?_, ?_, ?_, ?_, ?_, ?_, ?_, ?_, ?_, hst, ?_⟩
  any_goals (rw [hbe])
  · simp
  · apply optionStates_eq_of_deref_eq
    intro p hp
    obtain ⟨o, ho⟩ := Option.isSome_iff_exists.1 (hlive p hp)
    exact hold p (OptionHeap.deref_le_length h p o ho).2

/-- C6 on the sample configuration: the copy holds clones of "Hash" and "Ponder" at two new
addresses. -/
theorem copy_constructor_copies_stockfish :
    OptionsLive sampleHeap stockfish ∧
    ∃ (h1 : OptionHeap (String × String)) (b : EngineConfiguration),
      EngineConfiguration_copy sampleOptionClass sampleHeap stockfish = some (h1, b) ∧
      b.m_name = "Stockfish" ∧ b.m_variants = ["standard", "chess960"] ∧
      b.m_options = [3, 4] ∧
      optionStates h1 b = [some ("Hash", "16"), some ("Ponder", "false")] := by
  refine ⟨by decide, ?_⟩
  obtain ⟨h1, b, hb, f1, -, -, -, -, -, f7, -, -, -, hst, -⟩ :=
    copy_constructor_copies sampleOptionClass sampleHeap stockfish (by decide)
  refine ⟨h1, b, hb, f1, f7, ?_, hst⟩
  have heval : EngineConfiguration_copy sampleOptionClass sampleHeap stockfish =
      some (sampleHeap ++ [some ("Hash", "16"), some ("Ponder", "false")],
        { stockfish with m_options := [3, 4] }) := by decide
  rw [heval] at hb
  cases hb
  rfl

/-- C7. The assignment `a = b` between two distinct configuration objects, where `a` owns its
options, the option pointers of `b` are live and the two hold no option in common: afterwards
`a` has the name, command, protocol, working directory, arguments, init strings, variants,
white-POV flag and restart mode of `b`; it has as many options as `b`, the state of its i-th
option being the clone of the state of the i-th option of `b`; every option `a` held before
has been deleted and is no longer in its list; the options of `b` are as before.  Assigning a
configuration to itself returns the heap and the configuration as they were. -/
theorem assignment_copies_and_replaces (cls : EngineOptionClass Obj) (h : OptionHeap Obj)
    (aAddr bAddr : Nat) (a b : EngineConfiguration)
    (hdistinct : aAddr ≠ bAddr) (ha : OwnsOptions h a) (hb : OptionsLive h b)
    (hshare : NoSharedOption a b) :
    (∃ (h1 : OptionHeap Obj) (a1 : EngineConfiguration),
      operatorAssign cls h aAddr bAddr a b = some (h1, a1) ∧
      a1.m_name = b.m_name ∧ a1.m_command = b.m_command ∧ a1.m_protocol = b.m_protocol ∧
      a1.m_workingDirectory = b.m_workingDirectory ∧ a1.m_arguments = b.m_arguments ∧
      a1.m_initStrings = b.m_initStrings ∧ a1.m_variants = b.m_variants ∧
      a1.m_whiteEvalPov = b.m_whiteEvalPov ∧ a1.m_restartMode = b.m_restartMode ∧
      a1.m_options.length = b.m_options.length ∧
      optionStates h1 a1 = (optionStates h b).map (Option.map cls.copyState) ∧
      (∀ p ∈ a.m_options, p ∉ a1.m_options ∧ h1.deref p = none) ∧
      optionStates h1 b = optionStates h b) ∧
    (∀ (addr : Nat) (c : EngineConfiguration),
      operatorAssign cls h addr addr c c = some (h, c)) := by
  constructor
  · obtain ⟨hd, h1, a1, hres, hlen, hderef, hold, hce, hst⟩ :=
      assign_result cls h aAddr bAddr a b hdistinct ha hb hshare
    have hle : ∀ (c : EngineConfiguration), OptionsLive h c → ∀ p ∈ c.m_options,
        p ≤ List.length h := by
      intro c hc p hp
      obtain ⟨o, ho⟩ := Option.isSome_iff_exists.1 (hc p hp)
      exact (OptionHeap.deref_le_length h p o ho).2
    refine ⟨h1, a1, hres, ?_, ?_, ?_, ?_, ?_, ?_, ?_, ?_, ?_, ?_, hst, ?_, ?_⟩
    any_goals (rw [hce])
    · simp
    · intro p hp
      have hpl := hle a ha.1 p hp
      constructor
      · intro hmem
        have hlt := (List.mem_range'_1.1 hmem).1
        exact Nat.not_succ_le_self _ (Nat.le_trans hlt hpl)
      · rw [hold p hpl, hderef p, if_pos hp]
    · apply optionStates_eq_of_deref_eq
      intro p hp
      have hpa : p ∉ a.m_options := fun hpa => hshare p hpa hp
      rw [hold p (hle b hb p hp), hderef p, if_neg hpa]
  · intro addr c
    simp [operatorAssign]

/-- C7 on a concrete heap: a configuration holding the option at address 3 is assigned the
sample configuration, whose options are at the addresses 1 and 2. -/
theorem assignment_copies_and_replaces_sample :
    (10 : Nat) ≠ 20 ∧
    OwnsOptions (sampleHeap ++ [some ("Threads", "4")])
      { EngineConfiguration_default with m_name := "old", m_options := [3] } ∧
    OptionsLive (sampleHeap ++ [some ("Threads", "4")]) stockfish ∧
    NoSharedOption { EngineConfiguration_default with m_name := "old", m_options := [3] }
      stockfish ∧
    ∃ (h1 : OptionHeap (String × String)) (a1 : EngineConfiguration),
      operatorAssign sampleOptionClass (sampleHeap ++ [some ("Threads", "4")]) 10 20
        { EngineConfiguration_default with m_name := "old", m_options := [3] } stockfish
        = some (h1, a1) ∧
      a1.m_name = "Stockfish" ∧
      optionStates h1 a1 = [some ("Hash", "16"), some ("Ponder", "false")] ∧
      h1.deref 3 = none ∧
      optionStates h1 stockfish = [some ("Hash", "16"), some ("Ponder", "false")] := by
  refine ⟨by decide, by decide, by decide, by decide, ?_⟩
  obtain ⟨⟨h1, a1, hres, f1, -, -, -, -, -, -, -, -, -, hst, hgone, hsrc⟩, -⟩ :=
    assignment_copies_and_replaces sampleOptionClass (sampleHeap ++ [some ("Threads", "4")])
      10 20 { EngineConfiguration_default with m_name := "old", m_options := [3] } stockfish
      (by decide) (by decide) (by decide) (by decide)
  exact ⟨h1, a1, hres, f1, hst, (hgone 3 (by decide)).2, hsrc⟩

/-- C8. Deep copy independence, over the heap of option objects: for a configuration `a` with
at least one option, all of them live, the copy constructor returns a configuration `b` that
has options too and shares no option object with `a`, and writing a new state into any
option of `a` succeeds, changes that option, and leaves the state of every option of `b` as it
was.  The same holds when `b` is obtained by assigning `a` to a distinct configuration that
owns its options and shares none with `a`. -/
theorem deep_copy_independence (cls : EngineOptionClass Obj) (h : OptionHeap Obj)
    (a : EngineConfiguration) (hlive : OptionsLive h a) (hsome : a.m_options ≠ []) :
    (∃ (h1 : OptionHeap Obj) (b : EngineConfiguration),
      EngineConfiguration_copy cls h a = some (h1, b) ∧
      b.m_options ≠ [] ∧ NoSharedOption a b ∧
      ∀ p ∈ a.m_options, ∀ new : Obj, ∃ h2 : OptionHeap Obj,
        h1.write p new = some h2 ∧ h2.deref p = some new ∧
        optionStates h2 b = optionStates h1 b) ∧
    (∀ (bAddr aAddr : Nat) (b0 : EngineConfiguration),
      bAddr ≠ aAddr → OwnsOptions h b0 → NoSharedOption b0 a →
      ∃ (h1 : OptionHeap Obj) (b : EngineConfiguration),
        operatorAssign cls h bAddr aAddr b0 a = some (h1, b) ∧
        b.m_options ≠ [] ∧ NoSharedOption a b ∧
        ∀ p ∈ a.m_options, ∀ new : Obj, ∃ h2 : OptionHeap Obj,
          h1.write p new = some h2 ∧ h2.deref p = some new ∧
          optionStates h2 b = optionStates h1 b) := by
  have hle := live_le_length h a hlive
  have hpos : 0 < a.m_options.length := List.length_pos.2 hsome
  have hrange : List.range' (List.length h + 1) a.m_options.length ≠ [] := by
    intro e
    have := congrArg List.length e
    simp only [List.length_range', List.length_nil] at this
    exact absurd this (Nat.pos_iff_ne_zero.1 hpos)
  constructor
  · obtain ⟨objs, hobjs⟩ := OptionHeap.exists_states h a.m_options hlive
    obtain ⟨h1, b, hb, -, hbe, -, hold⟩ := copy_result cls h
      { a with m_options := [] } a.m_options objs rfl hobjs
    have hbo : b.m_options = List.range' (List.length h + 1) a.m_options.length := by
      rw [hbe]
    have key := write_source_keeps_clones h1 a b (List.length h)
      (fun p hp => ⟨hle p hp, by rw [hold p (hle p hp)]; exact hlive p hp⟩)
      (fun q hq => by rw [hbo] at hq; exact (List.mem_range'_1.1 hq).1)
    exact ⟨h1, b, hb, by rw [hbo]; exact hrange, key.1, key.2⟩
  · intro bAddr aAddr b0 hdistinct hown hshare
    obtain ⟨hd, h1, b, hres, -, hderef, hold, hbe, -⟩ :=
      assign_result cls h bAddr aAddr b0 a hdistinct hown hlive hshare
    have hbo : b.m_options = List.range' (List.length h + 1) a.m_options.length := by
      rw [hbe]
    have key := write_source_keeps_clones h1 a b (List.length h)
      (fun p hp => ⟨hle p hp, by
        have hpb : p ∉ b0.m_options := fun hpb => hshare p hpb hp
        rw [hold p (hle p hp), hderef p, if_neg hpb]
        exact hlive p hp⟩)
      (fun q hq => by rw [hbo] at hq; exact (List.mem_range'_1.1 hq).1)
    exact ⟨h1, b, hres, by rw [hbo]; exact hrange, key.1, key.2⟩

/-- C8 on the sample configuration: after copying, the option "Hash" of the original (address
1) is set to 256; the copy still holds "Hash" = 16 and "Ponder" = false. -/
theorem deep_copy_independence_stockfish :
    OptionsLive sampleHeap stockfish ∧ stockfish.m_options ≠ [] ∧
    ∃ (h1 h2 : OptionHeap (String × String)) (b : EngineConfiguration),
      EngineConfiguration_copy sampleOptionClass sampleHeap stockfish = some (h1, b) ∧
      h1.write 1 ("Hash", "256") = some h2 ∧
      optionStates h2 stockfish = [some ("Hash", "256"), some ("Ponder", "false")] ∧
      optionStates h2 b = [some ("Hash", "16"), some ("Ponder", "false")] := by
  refine ⟨by decide, by decide, ?_⟩
  obtain ⟨⟨h1, b, hb, -, -, hind⟩, -⟩ :=
    deep_copy_independence sampleOptionClass sampleHeap stockfish (by decide) (by decide)
  obtain ⟨h2, hw, -, hst⟩ := hind 1 (by decide) ("Hash", "256")
  have heval : EngineConfiguration_copy sampleOptionClass sampleHeap stockfish =
      some (sampleHeap ++ [some ("Hash", "16"), some ("Ponder", "false")],
        { stockfish with m_options := [3, 4] }) := by decide
  rw [heval] at hb
  cases hb
  have hw2 : OptionHeap.write (sampleHeap ++ [some ("Hash", "16"), some ("Ponder", "false")]) 1
      ("Hash", "256") = some [some ("Hash", "256"), some ("Ponder", "false"),
        some ("Hash", "16"), some ("Ponder", "false")] := by decide
  rw [hw2] at hw
  cases hw
  exact ⟨_, _, _, heval, hw2, by decide, hst.trans (by decide)⟩

/-- C9. The `restart` key: for a map that has the key, the map constructor returns a
configuration whose restart mode is `RestartAuto` when the value converts to the string
"auto", `RestartOn` for "on", `RestartOff` for "off", and the default `RestartAuto` for every
other string, in particular for "ON" and for the empty string. -/
theorem fromVariant_restart_values (cls : EngineOptionClass Obj) (h : OptionHeap Obj)
    (m : QVariantMap) (hkey : m.contains "restart" = true) :
    ∃ (h1 : OptionHeap Obj) (c : EngineConfiguration),
      EngineConfiguration_QVariant cls h (QVariant.map m) = some (h1, c) ∧
      ((m.value "restart").toString = "auto" → c.m_restartMode = RestartAuto) ∧
      ((m.value "restart").toString = "on" → c.m_restartMode = RestartOn) ∧
      ((m.value "restart").toString = "off" → c.m_restartMode = RestartOff) ∧
      ((m.value "restart").toString ≠ "auto" → (m.value "restart").toString ≠ "on" →
        (m.value "restart").toString ≠ "off" → c.m_restartMode = RestartAuto) ∧
      ((m.value "restart").toString = "ON" → c.m_restartMode = RestartAuto) ∧
      ((m.value "restart").toString = "" → c.m_restartMode = RestartAuto) := by
  obtain ⟨c, hc, -, -, -, -, -, -, -, f8, -, -⟩ :=
    EngineConfiguration_QVariant_fields cls h (QVariant.map m) _ rfl
  simp only [QVariant.toMap, hkey, if_true] at f8
  refine ⟨_, c, hc, ?_, ?_, ?_, ?_, ?_, ?_⟩
  · intro hv; simp [f8, hv]
  · intro hv; simp [f8, hv]
  · intro hv; simp [f8, hv]
  · intro h1 h2 h3; simp [f8, h1, h2, h3]
  · intro hv; simp [f8, hv]
  · intro hv; simp [f8, hv]

/-- C9 on the map `restart = "ON"`: the restart mode stays `RestartAuto`. -/
theorem fromVariant_restart_values_uppercase :
    QVariantMap.contains [("restart", QVariant.string "ON")] "restart" = true ∧
    ∃ (h1 : OptionHeap (String × String)) (c : EngineConfiguration),
      EngineConfiguration_QVariant sampleOptionClass sampleHeap
        (QVariant.map [("restart", QVariant.string "ON")]) = some (h1, c) ∧
      c.m_restartMode = RestartAuto := by
  refine ⟨by decide, ?_⟩
  obtain ⟨h1, c, hc, -, -, -, -, hupper, -⟩ :=
    fromVariant_restart_values sampleOptionClass sampleHeap
      [("restart", QVariant.string "ON")] (by decide)
  exact ⟨h1, c, hc, hupper rfl⟩

/-- C10. The `restart` key on output: for a configuration with live option pointers, the map
returned by `toVariant` has the key `restart` exactly when the restart mode is `RestartOn` or
`RestartOff`, with the value "on" for `RestartOn` and "off" for `RestartOff`, and has no such
key for `RestartAuto`.  So for a map whose `restart` value is "auto", the configuration the map
constructor returns serialises to a map without a `restart` key. -/
theorem toVariant_restart_key (cls : EngineOptionClass Obj) (h : OptionHeap Obj)
    (c : EngineConfiguration) (hlive : OptionsLive h c) :
    (∃ m : QVariantMap, toVariant cls h c = some (QVariant.map m) ∧
      (m.contains "restart" = true ↔
        c.m_restartMode = RestartOn ∨ c.m_restartMode = RestartOff) ∧
      (c.m_restartMode = RestartOn → m.value "restart" = QVariant.string "on") ∧
      (c.m_restartMode = RestartOff → m.value "restart" = QVariant.string "off") ∧
      (c.m_restartMode = RestartAuto → m.contains "restart" = false)) ∧
    (∀ m0 : QVariantMap, m0.contains "restart" = true →
      (m0.value "restart").toString = "auto" →
      ∃ (h1 : OptionHeap Obj) (c1 : EngineConfiguration) (m1 : QVariantMap),
        EngineConfiguration_QVariant cls h (QVariant.map m0) = some (h1, c1) ∧
        toVariant cls h1 c1 = some (QVariant.map m1) ∧
        m1.contains "restart" = false) := by
  constructor
  · obtain ⟨objs, hobjs⟩ := OptionHeap.exists_states h c.m_options hlive
    obtain ⟨m, hm, -, -, -, -, -, -, ⟨hr1, hr2, hr3⟩, -, -⟩ := toVariant_keys cls h c objs hobjs
    refine ⟨m, hm, ?_, hr2, hr3, ?_⟩
    · rw [hr1]
      cases c.m_restartMode <;> simp
    · intro hmode
      simp [hr1, hmode]
  · intro m0 hkey hval
    obtain ⟨c1, hc1, -, -, -, -, -, -, -, f8, -, -⟩ :=
      EngineConfiguration_QVariant_fields cls h (QVariant.map m0) _ rfl
    simp only [QVariant.toMap, hkey, hval, if_true] at f8
    have hlive1 := fromVariant_options_live cls h _ _ c1 hc1
    obtain ⟨objs, hobjs⟩ := OptionHeap.exists_states _ c1.m_options hlive1
    obtain ⟨m1, hm1, -, -, -, -, -, -, ⟨hr1, -, -⟩, -, -⟩ :=
      toVariant_keys cls _ c1 objs hobjs
    exact ⟨_, c1, m1, hc1, hm1, by simp [hr1, f8]⟩

/-- C10 on the sample configuration with its restart mode set to `RestartOff`. -/
theorem toVariant_restart_key_off :
    OptionsLive sampleHeap { stockfish with m_restartMode := RestartOff } ∧
    ∃ m : QVariantMap,
      toVariant sampleOptionClass sampleHeap { stockfish with m_restartMode := RestartOff }
        = some (QVariant.map m) ∧
      m.contains "restart" = true ∧ m.value "restart" = QVariant.string "off" := by
  refine ⟨by decide, ?_⟩
  obtain ⟨⟨m, hm, hiff, -, hoff, -⟩, -⟩ :=
    toVariant_restart_key sampleOptionClass sampleHeap
      { stockfish with m_restartMode := RestartOff } (by decide)
  exact ⟨m, hm, hiff.2 (Or.inr rfl), hoff rfl⟩

/-- C11. The four string keys: for a configuration with live option pointers, the map returned
by `toVariant` has the keys `name`, `command`, `workingDirectory` and `protocol`, holding the
configuration's name, command, working directory and protocol, also when these are empty. -/
theorem toVariant_string_keys (cls : EngineOptionClass Obj) (h : OptionHeap Obj)
    (c : EngineConfiguration) (hlive : OptionsLive h c) :
    ∃ m : QVariantMap, toVariant cls h c = some (QVariant.map m) ∧
      m.contains "name" = true ∧ m.value "name" = QVariant.string c.m_name ∧
      m.contains "command" = true ∧ m.value "command" = QVariant.string c.m_command ∧
      m.contains "workingDirectory" = true ∧
      m.value "workingDirectory" = QVariant.string c.m_workingDirectory ∧
      m.contains "protocol" = true ∧ m.value "protocol" = QVariant.string c.m_protocol := by
  obtain ⟨objs, hobjs⟩ := OptionHeap.exists_states h c.m_options hlive
  obtain ⟨m, hm, ⟨n1, n2⟩, ⟨c1, c2⟩, ⟨w1, w2⟩, ⟨p1, p2⟩, -⟩ := toVariant_keys cls h c objs hobjs
  exact ⟨m, hm, n1, n2, c1, c2, w1, w2, p1, p2⟩

/-- C11 on the default-constructed configuration, whose four strings are empty. -/
theorem toVariant_string_keys_empty :
    OptionsLive sampleHeap EngineConfiguration_default ∧
    ∃ m : QVariantMap,
      toVariant sampleOptionClass sampleHeap EngineConfiguration_default
        = some (QVariant.map m) ∧
      m.contains "name" = true ∧ m.value "name" = QVariant.string "" ∧
      m.contains "command" = true ∧ m.value "command" = QVariant.string "" ∧
      m.contains "workingDirectory" = true ∧ m.value "workingDirectory" = QVariant.string "" ∧
      m.contains "protocol" = true ∧ m.value "protocol" = QVariant.string "" :=
  ⟨by decide,
    toVariant_string_keys sampleOptionClass sampleHeap EngineConfiguration_default (by decide)⟩

/-- C12. The `options` key: for a configuration with live option pointers, the map returned
by `toVariant` has the key `options` exactly when the options list is not empty, and its value
is then a list as long as the options list whose i-th element is what `toVariant()` returns on
the i-th option. -/
theorem toVariant_options_key (cls : EngineOptionClass Obj) (h : OptionHeap Obj)
    (c : EngineConfiguration) (hlive : OptionsLive h c) :
    ∃ m : QVariantMap, toVariant cls h c = some (QVariant.map m) ∧
      (m.contains "options" = true ↔ c.m_options ≠ []) ∧
      (c.m_options ≠ [] → ∃ l : List QVariant,
        m.value "options" = QVariant.list l ∧
        l.length = c.m_options.length ∧
        l.map some = c.m_options.map (EngineOption.toVariant cls h)) := by
  obtain ⟨objs, hobjs⟩ := OptionHeap.exists_states h c.m_options hlive
  obtain ⟨m, hm, -, -, -, -, -, -, -, -, ⟨ho1, ho2⟩⟩ := toVariant_keys cls h c objs hobjs
  have hlen : objs.length = c.m_options.length := by
    have := congrArg List.length hobjs
    simpa using this.symm
  refine ⟨m, hm, ?_, ?_⟩
  · rw [ho1]
    cases c.m_options <;> simp
  · intro hne
    refine ⟨objs.map cls.variantOf, ho2 hne, by simpa using hlen, ?_⟩
    have hser : c.m_options.map (EngineOption.toVariant cls h) =
        (c.m_options.map h.deref).map (Option.map cls.variantOf) := by
      rw [List.map_map]
      apply List.map_congr_left
      intro p _
      simp only [EngineOption.toVariant, Function.comp]
      cases h.deref p <;> rfl
    rw [hser, hobjs]
    simp [Function.comp_def]

/-- C12 on the sample configuration, which holds the options "Hash" and "Ponder". -/
theorem toVariant_options_key_stockfish :
    OptionsLive sampleHeap stockfish ∧ stockfish.m_options ≠ [] ∧
    ∃ (m : QVariantMap) (l : List QVariant),
      toVariant sampleOptionClass sampleHeap stockfish = some (QVariant.map m) ∧
      m.contains "options" = true ∧
      m.value "options" = QVariant.list l ∧ l.length = 2 ∧
      l.map some = [EngineOption.toVariant sampleOptionClass sampleHeap 1,
        EngineOption.toVariant sampleOptionClass sampleHeap 2] := by
  refine ⟨by decide, by decide, ?_⟩
  obtain ⟨m, hm, hiff, hval⟩ :=
    toVariant_options_key sampleOptionClass sampleHeap stockfish (by decide)
  obtain ⟨l, hl, hlen, hmap⟩ := hval (by decide)
  exact ⟨m, l, hm, hiff.2 (by decide), hl, hlen, hmap⟩

/-- C13. The keys `whitepov` and `initStrings`: for a configuration with live option pointers,
the map returned by `toVariant` has the key `whitepov` exactly when the white-POV flag is set,
its value is then the boolean `true`, and in no case is the value of `whitepov` the boolean
`false`; the map has the key `initStrings` exactly when the init strings are not empty, and
its value is then the list of init strings. -/
theorem toVariant_whitepov_initStrings_keys (cls : EngineOptionClass Obj) (h : OptionHeap Obj)
    (c : EngineConfiguration) (hlive : OptionsLive h c) :
    ∃ m : QVariantMap, toVariant cls h c = some (QVariant.map m) ∧
      (m.contains "whitepov" = true ↔ c.m_whiteEvalPov = true) ∧
      (m.contains "whitepov" = true → m.value "whitepov" = QVariant.bool true) ∧
      m.value "whitepov" ≠ QVariant.bool false ∧
      (m.contains "initStrings" = true ↔ c.m_initStrings ≠ []) ∧
      (m.contains "initStrings" = true →
        m.value "initStrings" = QVariant.stringList c.m_initStrings) := by
  obtain ⟨objs, hobjs⟩ := OptionHeap.exists_states h c.m_options hlive
  obtain ⟨m, hm, -, -, -, -, ⟨hi1, hi2⟩, ⟨hw1, hw2⟩, -⟩ := toVariant_keys cls h c objs hobjs
  have hinit : m.contains "initStrings" = true ↔ c.m_initStrings ≠ [] := by
    rw [hi1]
    cases c.m_initStrings <;> simp
  refine ⟨m, hm, by rw [hw1], ?_, ?_, hinit, fun hk => hi2 (hinit.1 hk)⟩
  · intro hk
    rw [hw1] at hk
    exact hw2 hk
  · cases hb : c.m_whiteEvalPov with
    | true => rw [hw2 hb]; simp
    | false =>
      have hk : m.contains "whitepov" = false := by rw [hw1, hb]
      rw [QVariantMap.value_of_not_contains m _ hk]
      simp

/-- C13 on the sample configuration with the white-POV flag cleared and one init string. -/
theorem toVariant_whitepov_initStrings_keys_sample :
    OptionsLive sampleHeap
      { stockfish with m_whiteEvalPov := false, m_initStrings := ["log off"] } ∧
    ∃ m : QVariantMap,
      toVariant sampleOptionClass sampleHeap
        { stockfish with m_whiteEvalPov := false, m_initStrings := ["log off"] }
        = some (QVariant.map m) ∧
      m.contains "whitepov" = false ∧
      m.contains "initStrings" = true ∧
      m.value "initStrings" = QVariant.stringList ["log off"] := by
  refine ⟨by decide, ?_⟩
  obtain ⟨m, hm, hw, -, -, hi, hv⟩ :=
    toVariant_whitepov_initStrings_keys sampleOptionClass sampleHeap
      { stockfish with m_whiteEvalPov := false, m_initStrings := ["log off"] } (by decide)
  have hk : m.contains "initStrings" = true := hi.2 (by decide)
  refine ⟨m, hm, ?_, hk, hv hk⟩
  cases hc : m.contains "whitepov" with
  | false => rfl
  | true => exact absurd (hw.1 hc) (by decide)

/-- C14. The member `addInitString`: the init strings afterwards are the previous ones followed
by the segments of the argument between its newline characters, in order and with empty
segments kept (no segment has a newline, and the segments joined by newlines give back the
argument), so the list grows by one plus the number of newlines in the argument; every other
field is unchanged.  On the default-constructed configuration the argument
"setoption X\nsetoption Y" gives the two init strings "setoption X" and "setoption Y". -/
theorem addInitString_splits_lines (c : EngineConfiguration) (s : String) :
    (c.addInitString s).m_initStrings = c.m_initStrings ++ QString.split s '\n' ∧
    (∀ seg ∈ QString.split s '\n', '\n' ∉ seg.data) ∧
    ['\n'].intercalate ((QString.split s '\n').map String.data) = s.data ∧
    (c.addInitString s).m_initStrings.length =
      c.m_initStrings.length + (1 + s.data.count '\n') ∧
    (c.addInitString s).m_name = c.m_name ∧
    (c.addInitString s).m_command = c.m_command ∧
    (c.addInitString s).m_workingDirectory = c.m_workingDirectory ∧
    (c.addInitString s).m_protocol = c.m_protocol ∧
    (c.addInitString s).m_arguments = c.m_arguments ∧
    (c.addInitString s).m_variants = c.m_variants ∧
    (c.addInitString s).m_whiteEvalPov = c.m_whiteEvalPov ∧
    (c.addInitString s).m_restartMode = c.m_restartMode ∧
    (c.addInitString s).m_options = c.m_options ∧
    (EngineConfiguration_default.addInitString "setoption X\nsetoption Y").m_initStrings =
      ["setoption X", "setoption Y"] := by
  have hdata : (QString.split s '\n').map String.data = QString.splitChars '\n' s.data := by
    simp [QString.split, Function.comp_def]
  refine ⟨rfl, ?_, ?_, ?_, rfl, rfl, rfl, rfl, rfl, rfl, rfl, rfl, rfl, by decide⟩
  · intro seg hseg
    have hmem : seg.data ∈ (QString.split s '\n').map String.data :=
      List.mem_map_of_mem _ hseg
    rw [hdata] at hmem
    exact QString.not_mem_splitChars '\n' s.data seg.data hmem
  · rw [hdata]
    exact QString.intercalate_splitChars '\n' s.data
  · simp [addInitString, QString.split, QString.length_splitChars]

/-- C15. Construction: the default-constructed configuration has an empty name, command,
working directory and protocol, no arguments, init strings or options, the variants
`["standard"]`, the white-POV flag cleared and the restart mode `RestartAuto`; the
configuration constructed from a name, a command and a protocol is the default-constructed one
with these three fields set. -/
theorem constructors_defaults (name command protocol : String) :
    EngineConfiguration_default.m_name = "" ∧
    EngineConfiguration_default.m_command = "" ∧
    EngineConfiguration_default.m_workingDirectory = "" ∧
    EngineConfiguration_default.m_protocol = "" ∧
    EngineConfiguration_default.m_arguments = [] ∧
    EngineConfiguration_default.m_initStrings = [] ∧
    EngineConfiguration_default.m_options = [] ∧
    EngineConfiguration_default.m_variants = ["standard"] ∧
    EngineConfiguration_default.m_whiteEvalPov = false ∧
    EngineConfiguration_default.m_restartMode = RestartAuto ∧
    EngineConfiguration_name_command_protocol name command protocol =
      { EngineConfiguration_default with
        m_name := name, m_command := command, m_protocol := protocol } :=
  ⟨rfl, rfl, rfl, rfl, rfl, rfl, rfl, rfl, rfl, rfl, rfl⟩

/-- C17. The members `setOptions` and `addOption`: for a configuration that owns its options
and any list `l` of option pointers, `setOptions` returns a configuration whose options list
is exactly `l`, every option held before has been deleted and no other object is touched, and
the name, command, working directory, protocol, arguments, init strings, variants, white-POV
flag and restart mode are unchanged; `addOption` with a non-null pointer returns a
configuration whose options list is the previous one followed by that pointer, with every
other field unchanged. -/
theorem setOptions_addOption_frame {Obj : Type} (h : OptionHeap Obj)
    (c : EngineConfiguration) (l : List EngineOptionPtr) (o : EngineOptionPtr)
    (hown : OwnsOptions h c) (ho : o ≠ 0) :
    (∃ (h1 : OptionHeap Obj) (c1 : EngineConfiguration),
      setOptions h c l = some (h1, c1) ∧
      c1.m_options = l ∧
      (∀ p ∈ c.m_options, h1.deref p = none) ∧
      (∀ q, q ∉ c.m_options → h1.deref q = h.deref q) ∧
      c1.m_name = c.m_name ∧ c1.m_command = c.m_command ∧
      c1.m_workingDirectory = c.m_workingDirectory ∧ c1.m_protocol = c.m_protocol ∧
      c1.m_arguments = c.m_arguments ∧ c1.m_initStrings = c.m_initStrings ∧
      c1.m_variants = c.m_variants ∧ c1.m_whiteEvalPov = c.m_whiteEvalPov ∧
      c1.m_restartMode = c.m_restartMode) ∧
    (∃ c2 : EngineConfiguration,
      c.addOption o = some c2 ∧
      c2.m_options = c.m_options ++ [o] ∧
      c2.m_name = c.m_name ∧ c2.m_command = c.m_command ∧
      c2.m_workingDirectory = c.m_workingDirectory ∧ c2.m_protocol = c.m_protocol ∧
      c2.m_arguments = c.m_arguments ∧ c2.m_initStrings = c.m_initStrings ∧
      c2.m_variants = c.m_variants ∧ c2.m_whiteEvalPov = c.m_whiteEvalPov ∧
      c2.m_restartMode = c.m_restartMode) := by
  constructor
  · obtain ⟨h1, hdel, -, hderef⟩ := qDeleteAll_of_owned h c.m_options hown.1 hown.2
    refine ⟨h1, { c with m_options := l }, by simp [setOptions, hdel], rfl, ?_, ?_,
      rfl, rfl, rfl, rfl, rfl, rfl, rfl, rfl, rfl⟩
    · intro p hp
      rw [hderef p, if_pos hp]
    · intro q hq
      rw [hderef q, if_neg hq]
  · exact ⟨{ c with m_options := c.m_options ++ [o] }, by simp [addOption, ho],
      rfl, rfl, rfl, rfl, rfl, rfl, rfl, rfl, rfl, rfl⟩

/-- C17 on the sample configuration in a heap with a third option at address 3: `setOptions`
with the list `[3]` deletes the options at 1 and 2, and `addOption` with 3 appends it. -/
theorem setOptions_addOption_frame_stockfish :
    OwnsOptions (sampleHeap ++ [some ("Threads", "4")]) stockfish ∧ (3 : EngineOptionPtr) ≠ 0 ∧
    (∃ (h1 : OptionHeap (String × String)) (c1 : EngineConfiguration),
      setOptions (sampleHeap ++ [some ("Threads", "4")]) stockfish [3] = some (h1, c1) ∧
      c1.m_options = [3] ∧ h1.deref 1 = none ∧ h1.deref 2 = none ∧
      h1.deref 3 = some ("Threads", "4") ∧ c1.m_name = "Stockfish") ∧
    (∃ c2 : EngineConfiguration,
      stockfish.addOption 3 = some c2 ∧ c2.m_options = [1, 2, 3]) := by
  refine ⟨by decide, by decide, ?_⟩
  obtain ⟨⟨h1, c1, hset, hl, hgone, hkeep, hname, -⟩, ⟨c2, hadd, hl2, -⟩⟩ :=
    setOptions_addOption_frame (sampleHeap ++ [some ("Threads", "4")]) stockfish [3] 3
      (by decide) (by decide)
  exact ⟨⟨h1, c1, hset, hl, hgone 1 (by decide), hgone 2 (by decide),
    (hkeep 3 (by decide)).trans (by decide), hname⟩, ⟨c2, hadd, hl2⟩⟩

/-- C18. Arguments are not persisted: `toVariant` returns the same result for two
configurations that differ only in their arguments; the configuration the map constructor
returns has no arguments, whatever the map; so for a configuration with live option pointers
the round trip through `toVariant` and the map constructor gives back the arguments exactly
when there were none. -/
theorem arguments_not_persisted (cls : EngineOptionClass Obj) (h : OptionHeap Obj)
    (c : EngineConfiguration) (args : List String) (m : QVariantMap) :
    toVariant cls h { c with m_arguments := args } = toVariant cls h c ∧
    (∃ (h1 : OptionHeap Obj) (c1 : EngineConfiguration),
      EngineConfiguration_QVariant cls h (QVariant.map m) = some (h1, c1) ∧
      c1.m_arguments = []) ∧
    (OptionsLive h c →
      ∃ (v : QVariant) (h1 : OptionHeap Obj) (c1 : EngineConfiguration),
        toVariant cls h c = some v ∧
        EngineConfiguration_QVariant cls h v = some (h1, c1) ∧
        (c1.m_arguments = c.m_arguments ↔ c.m_arguments = [])) := by
  refine ⟨rfl, ?_, ?_⟩
  · obtain ⟨c1, hc1, -, -, -, -, f5, -⟩ :=
      EngineConfiguration_QVariant_fields cls h (QVariant.map m) _ rfl
    exact ⟨_, c1, hc1, f5⟩
  · intro hlive
    obtain ⟨objs, hobjs⟩ := OptionHeap.exists_states h c.m_options hlive
    obtain ⟨m0, hm0, -⟩ := toVariant_keys cls h c objs hobjs
    obtain ⟨c1, hc1, -, -, -, -, f5, -⟩ :=
      EngineConfiguration_QVariant_fields cls h (QVariant.map m0) _ rfl
    refine ⟨_, _, c1, hm0, hc1, ?_⟩
    rw [f5]
    exact ⟨fun e => e.symm, fun e => e.symm⟩

/-- C19. Normal form after one round trip: for a configuration with live option pointers, such
that the factory rebuilds each of its options from the option's serialised form into an option
with the same serialised form, the map constructor applied to what `toVariant` returns gives a
configuration on which `toVariant` returns the same value again; nothing is assumed about the
variants or the arguments. -/
theorem roundtrip_normal_form (cls : EngineOptionClass Obj) (h : OptionHeap Obj)
    (c : EngineConfiguration) (hlive : OptionsLive h c)
    (hfactory : ∀ p ∈ c.m_options, ∀ o, h.deref p = some o →
      ∃ o1, cls.createState (cls.variantOf o).toMap = some o1 ∧
        cls.variantOf o1 = cls.variantOf o) :
    ∃ (v : QVariant) (h1 : OptionHeap Obj) (c1 : EngineConfiguration),
      toVariant cls h c = some v ∧
      EngineConfiguration_QVariant cls h v = some (h1, c1) ∧
      toVariant cls h1 c1 = some v := by
  obtain ⟨objs, hobjs⟩ := OptionHeap.exists_states h c.m_options hlive
  obtain ⟨m, c1, hm, hc1, f1, f2, f3, f4, f5, f6, f7, f8, f9⟩ :=
    roundtrip_fields cls h c objs hobjs
  have hrebuilt : ∀ o ∈ objs, ∃ o1, cls.createState (cls.variantOf o).toMap = some o1 ∧
      cls.variantOf o1 = cls.variantOf o := by
    intro o ho
    have hmem : some o ∈ c.m_options.map h.deref := by
      rw [hobjs]; exact List.mem_map_of_mem _ ho
    obtain ⟨p, hp, hpo⟩ := List.mem_map.1 hmem
    exact hfactory p hp o hpo
  have hser := filterMap_create_variantOf cls objs hrebuilt
  have hlen : objs.length = c.m_options.length := by
    have := congrArg List.length hobjs
    simpa using this.symm
  have hlen1 : ((objs.map cls.variantOf).filterMap fun x => cls.createState x.toMap).length =
      objs.length := by
    have := congrArg List.length hser
    simpa using this
  have hstates : c1.m_options.map
      (OptionHeap.deref (h ++ ((objs.map cls.variantOf).filterMap
        fun x => cls.createState x.toMap).map some)) =
      ((objs.map cls.variantOf).filterMap fun x => cls.createState x.toMap).map some := by
    rw [f9]
    have := OptionHeap.map_deref_range h
      (((objs.map cls.variantOf).filterMap fun x => cls.createState x.toMap).map some)
    simpa using this
  refine ⟨_, _, c1, hm, hc1, ?_⟩
  rw [← hm]
  apply toVariant_congr cls h _ c c1 f1 f2 f3 f4 f5 f6 f7
  · rw [f8]
    by_cases hcount : c.m_variants.count "standard" = c.m_variants.length
    · right
      simp [hcount]
    · left
      simp [hcount]
  · rw [f9]
    cases hl : c.m_options with
    | nil =>
      have : objs = [] := by
        rw [hl] at hlen; exact List.length_eq_zero.1 hlen
      simp [this]
    | cons a l =>
      rw [hl] at hlen
      rw [hlen1, hlen]
      rfl
  · rw [toVariant_loop_eq cls _ c1.m_options _ [] hstates,
      toVariant_loop_eq cls h c.m_options objs [] hobjs, hser]

/-- C19 on the sample configuration with the variants `["standard", "standard"]` and a
command-line argument. -/
theorem roundtrip_normal_form_sample :
    OptionsLive sampleHeap
      { stockfish with m_variants := ["standard", "standard"], m_arguments := ["-log"] } ∧
    ∃ (v : QVariant) (h1 : OptionHeap (String × String)) (c1 : EngineConfiguration),
      toVariant sampleOptionClass sampleHeap
        { stockfish with m_variants := ["standard", "standard"], m_arguments := ["-log"] }
        = some v ∧
      EngineConfiguration_QVariant sampleOptionClass sampleHeap v = some (h1, c1) ∧
      toVariant sampleOptionClass h1 c1 = some v :=
  ⟨by decide,
    roundtrip_normal_form sampleOptionClass sampleHeap
      { stockfish with m_variants := ["standard", "standard"], m_arguments := ["-log"] }
      (by decide) (fun _ _ o _ => ⟨o, sampleOptionClass_rebuilds o, rfl⟩)⟩

/-- C20. Assignment agrees with copy construction: for two distinct configuration objects,
the target `a` owning its options whatever they and its other fields are, the option pointers
of the source `b` live and no option shared, the assignment `a = b` and the copy construction
from `b` both return a configuration, and the two results have the same name, command, working
directory, protocol, arguments, init strings, variants, white-POV flag and restart mode, the
same number of options, and option by option the same state. -/
theorem assignment_agrees_with_copy (cls : EngineOptionClass Obj) (h : OptionHeap Obj)
    (aAddr bAddr : Nat) (a b : EngineConfiguration)
    (hdistinct : aAddr ≠ bAddr) (ha : OwnsOptions h a) (hb : OptionsLive h b)
    (hshare : NoSharedOption a b) :
    ∃ (h1 : OptionHeap Obj) (a1 : EngineConfiguration)
      (h2 : OptionHeap Obj) (b2 : EngineConfiguration),
      operatorAssign cls h aAddr bAddr a b = some (h1, a1) ∧
      EngineConfiguration_copy cls h b = some (h2, b2) ∧
      a1.m_name = b2.m_name ∧ a1.m_command = b2.m_command ∧
      a1.m_workingDirectory = b2.m_workingDirectory ∧ a1.m_protocol = b2.m_protocol ∧
      a1.m_arguments = b2.m_arguments ∧ a1.m_initStrings = b2.m_initStrings ∧
      a1.m_variants = b2.m_variants ∧ a1.m_whiteEvalPov = b2.m_whiteEvalPov ∧
      a1.m_restartMode = b2.m_restartMode ∧
      a1.m_options.length = b2.m_options.length ∧
      optionStates h1 a1 = optionStates h2 b2 := by
  obtain ⟨hd, h1, a1, hres, -, -, -, hae, hast⟩ :=
    assign_result cls h aAddr bAddr a b hdistinct ha hb hshare
  obtain ⟨objs, hobjs⟩ := OptionHeap.exists_states h b.m_options hb
  obtain ⟨h2, b2, hcopy, -, hbe, hbst, -⟩ := copy_result cls h
    { b with m_options := [] } b.m_options objs rfl hobjs
  have hstates : optionStates h1 a1 = optionStates h2 b2 := by
    rw [hast, hbst]
    rfl
  refine ⟨h1, a1, h2, b2, hres, hcopy, ?_, ?_, ?_, ?_, ?_, ?_, ?_, ?_, ?_, ?_, hstates⟩
  all_goals (rw [hae, hbe])

/-- C20 on a concrete heap: a configuration with its own name, argument, init string and
option (at address 3) is assigned the sample configuration; the result agrees with the copy of
the sample configuration. -/
theorem assignment_agrees_with_copy_sample :
    (10 : Nat) ≠ 20 ∧
    OwnsOptions (sampleHeap ++ [some ("Threads", "4")])
      { EngineConfiguration_default with
        m_name := "old", m_arguments := ["-x"], m_initStrings := ["hello"],
        m_options := [3] } ∧
    OptionsLive (sampleHeap ++ [some ("Threads", "4")]) stockfish ∧
    NoSharedOption
      { EngineConfiguration_default with
        m_name := "old", m_arguments := ["-x"], m_initStrings := ["hello"],
        m_options := [3] } stockfish ∧
    ∃ (h1 : OptionHeap (String × String)) (a1 : EngineConfiguration)
      (h2 : OptionHeap (String × String)) (b2 : EngineConfiguration),
      operatorAssign sampleOptionClass (sampleHeap ++ [some ("Threads", "4")]) 10 20
        { EngineConfiguration_default with
          m_name := "old", m_arguments := ["-x"], m_initStrings := ["hello"],
          m_options := [3] } stockfish = some (h1, a1) ∧
      EngineConfiguration_copy sampleOptionClass (sampleHeap ++ [some ("Threads", "4")])
        stockfish = some (h2, b2) ∧
      a1.m_name = b2.m_name ∧ a1.m_arguments = b2.m_arguments ∧
      a1.m_initStrings = b2.m_initStrings ∧
      optionStates h1 a1 = optionStates h2 b2 := by
  refine ⟨by decide, by decide, by decide, by decide, ?_⟩
  obtain ⟨h1, a1, h2, b2, hres, hcopy, f1, -, -, -, f5, f6, -, -, -, -, hst⟩ :=
    assignment_agrees_with_copy sampleOptionClass (sampleHeap ++ [some ("Threads", "4")])
      10 20
      { EngineConfiguration_default with
        m_name := "old", m_arguments := ["-x"], m_initStrings := ["hello"],
        m_options := [3] } stockfish (by decide) (by decide) (by decide) (by decide)
  exact ⟨h1, a1, h2, b2, hres, hcopy, f1, f5, f6, hst⟩

/-- C16, amended. The options invariant over program runs.  In every state a program reaches
through the constructors, the field setters, `addArgument`, `addInitString`, copy construction,
assignment, `addOption` called with a non-null pointer and `setOptions` called with a list of
non-null pointers, every element of every configuration's options list is non-null.  When
moreover every option handed to `addOption` or `setOptions` is a live option that no
configuration holds (the list without repetition), every element of every options list is a
live option object, and non-null. -/
theorem options_invariant (cls : EngineOptionClass Obj) (w : World Obj) :
    (Reachable cls nonNullOption nonNullList w → AllOptionsNonNull w) ∧
    (Reachable cls unheldOption unheldList w → AllOptionsLive w ∧ AllOptionsNonNull w) := by
  refine ⟨reachable_nonnull cls w, ?_⟩
  intro hw
  have hex := reachable_exclusive cls w hw
  refine ⟨fun c hc => (hex.1 c hc).1, ?_⟩
  intro c hc p hp e
  have hlive := (hex.1 c hc).1 p hp
  rw [e] at hlive
  exact absurd hlive (by simp [OptionHeap.deref])

/-- C16, amended, on a run: the caller creates the option "Hash", default-constructs a
configuration and adds the option to it. -/
theorem options_invariant_sample :
    Reachable sampleOptionClass unheldOption unheldList
      ⟨[some ("Hash", "16")], [{ EngineConfiguration_default with m_options := [1] }]⟩ ∧
    AllOptionsLive (⟨[some ("Hash", "16")],
      [{ EngineConfiguration_default with m_options := [1] }]⟩ : World (String × String)) ∧
    AllOptionsNonNull (⟨[some ("Hash", "16")],
      [{ EngineConfiguration_default with m_options := [1] }]⟩ : World (String × String)) := by
  have h0 : Reachable sampleOptionClass unheldOption unheldList
      (⟨[], []⟩ : World (String × String)) := Reachable.start []
  have h1 : Reachable sampleOptionClass unheldOption unheldList
      (⟨[some ("Hash", "16")], []⟩ : World (String × String)) :=
    Reachable.step _ _ h0 (Step.newOption ⟨[], []⟩ ("Hash", "16"))
  have h2 : Reachable sampleOptionClass unheldOption unheldList
      (⟨[some ("Hash", "16")], [EngineConfiguration_default]⟩ : World (String × String)) :=
    Reachable.step _ _ h1 (Step.construct ⟨[some ("Hash", "16")], []⟩)
  have h3 : Reachable sampleOptionClass unheldOption unheldList
      (⟨[some ("Hash", "16")], [{ EngineConfiguration_default with m_options := [1] }]⟩ :
        World (String × String)) :=
    Reachable.step _ _ h2
      (Step.addOption ⟨[some ("Hash", "16")], [EngineConfiguration_default]⟩ 0
        EngineConfiguration_default 1 { EngineConfiguration_default with m_options := [1] }
        rfl ⟨rfl, by intro c hc; rw [List.mem_singleton.1 hc]; decide⟩ rfl)
  exact ⟨h3, (options_invariant sampleOptionClass _).2 h3⟩

/-- C16 as stated fails: with `setOptions` called on any list, a program default-constructs a
configuration and calls `setOptions` with a list holding the null pointer; the call
succeeds and the options list then has a null element. -/
theorem options_invariant_fails_for_any_list :
    setOptions ([] : OptionHeap (String × String)) EngineConfiguration_default [0] =
      some ([], { EngineConfiguration_default with m_options := [0] }) ∧
    Reachable sampleOptionClass nonNullOption anyList
      ⟨[], [{ EngineConfiguration_default with m_options := [0] }]⟩ ∧
    ¬ AllOptionsNonNull (⟨[], [{ EngineConfiguration_default with m_options := [0] }]⟩ :
      World (String × String)) := by
  have h0 : Reachable sampleOptionClass nonNullOption anyList
      (⟨[], []⟩ : World (String × String)) := Reachable.start []
  have h1 : Reachable sampleOptionClass nonNullOption anyList
      (⟨[], [EngineConfiguration_default]⟩ : World (String × String)) :=
    Reachable.step _ _ h0 (Step.construct ⟨[], []⟩)
  have h2 : Reachable sampleOptionClass nonNullOption anyList
      (⟨[], [{ EngineConfiguration_default with m_options := [0] }]⟩ :
        World (String × String)) :=
    Reachable.step _ _ h1
      (Step.setOptions ⟨[], [EngineConfiguration_default]⟩ 0 EngineConfiguration_default [0]
        [] { EngineConfiguration_default with m_options := [0] } rfl trivial rfl)
  refine ⟨rfl, h2, ?_⟩
  intro hall
  exact hall { EngineConfiguration_default with m_options := [0] }
    (List.mem_singleton.2 rfl) 0 (List.mem_singleton.2 rfl) rfl

end Claims

end CuteChess
